import Mathlib

/-!
# A verification model of the `measurement` dimensional-analysis library

This file gives a shallow embedding of the core of the `measurement`
Python package (`src/__init__.py`) and settles a list of claims about it.

Modelling conventions, fixed once here:

* Python `int`/`float` powers are modelled as `ℚ`.  In the source a term
  power is an `int` exactly when its value is integral (`Metric.Term.__init__`
  converts integral floats back to `int`), so "the power is an int" is
  modelled as `p.den = 1`.  Term equality in Python uses numeric `==`
  (under which `2 == 2.0`), so the `ℚ` model preserves equality of terms.
  Dyadic float arithmetic on the fractional powers exercised here
  (halving/doubling) is exact in both `float` and `ℚ`.
* `Metric.Prefix.__eq__` compares only `(base, power)`; names and symbols
  of prefixes never influence term equality, canonicalization or `reduce`.
  Term-level prefixes are therefore modelled as the pair `(base, power)`
  (`Pfx`); named prefixes appear only in the registry model used for the
  registration claims.
* Python dictionaries keyed by canonicalized term `frozenset`s
  (`defined_dimensions_by_terms`, `defined_metrics_by_terms`,
  `Metric.conversions`, `Metric.base_metric_of`) are modelled as
  association lists looked up by term-set equality.
* A canonicalized `frozenset` of terms is modelled as the sorted,
  key-deduplicated list that `canonicalize` builds just before freezing it;
  two such lists are set-equal iff they are equal up to permutation, and
  the claims below compare them accordingly (or literally, where the
  construction order is itself reproduced).
-/

namespace Measurement

attribute [local semireducible] Rat.add Rat.mul Rat.sub Rat.inv

/-- A Python exception-or-value outcome: `crash` covers exceptions other
than the library's own (`TypeError`, `KeyError`, unbounded recursion). -/
inductive Outcome (α : Type) where
  | ok (a : α)
  | crash
deriving DecidableEq, Repr

/-- A defined (atomic) Dimension as it occurs inside canonical term sets.
`Dimension.Term.__eq__` compares `dimension.name`, and every dimension that
occurs inside a canonical term set is a defined dimension whose own term
set is `{self¹}`, so the name determines it. -/
structure DAtom where
  name : String
deriving DecidableEq, Repr

/-- `Dimension.Term` over an atomic dimension: the shape of terms inside a
canonical dimension term set. -/
structure DTerm where
  dim : DAtom
  power : ℚ
deriving DecidableEq, Repr

/-- An outer `Dimension` object as consumed by `Dimension.canonicalize`:
its `name` (used by the `scalar` test `dimension.name == "number"`) and its
own term set (over atomic dimensions, as in the source, where flattening
looks exactly one level deep into `term.dimension.terms`). -/
structure Dim where
  name : String
  terms : List DTerm
deriving DecidableEq, Repr

/-- `Dimension.Term` at the outer level: the input shape of
`Dimension.canonicalize`. -/
structure ODTerm where
  dim : Dim
  power : ℚ
deriving DecidableEq, Repr

/-- `Dimension.Term.scalar`: `power == 0 or dimension.name == "number"`. -/
def ODTerm.scalar (t : ODTerm) : Bool :=
  t.power = 0 || t.dim.name = "number"

/-- The `Number` dimension, as an atom. -/
def numberAtom : DAtom := ⟨"number"⟩

/-- The `Number` dimension as an outer `Dimension` object: a defined
dimension, whose terms are `{self¹}`. -/
def numberDim : Dim := ⟨"number", [⟨numberAtom, 1⟩]⟩

/-- An atomic dimension lifted to an outer `Dimension` object (defined
dimensions have `terms = frozenset([Dimension.Term(self, 1)])`). -/
def DAtom.toDim (a : DAtom) : Dim := ⟨a.name, [⟨a, 1⟩]⟩

/-- Accumulation into the insertion-ordered `dimension_powers` dict:
`dimension_powers[d] += q`, inserting `d` at the end on first sight. -/
def bumpD : List (DAtom × ℚ) → DAtom → ℚ → List (DAtom × ℚ)
  | [], a, q => [(a, q)]
  | (b, p) :: rest, a, q =>
      if b = a then (b, p + q) :: rest else (b, p) :: bumpD rest a q

/-- The flatten/collect loop of `Dimension.canonicalize`: skip `scalar`
terms, and for every inner term of the remaining terms' dimensions
accumulate `term.power * inner_term.power` keyed by the inner dimension. -/
def collectD (ts : List ODTerm) : List (DAtom × ℚ) :=
  ts.foldl
    (fun acc t =>
      if t.scalar then acc
      else t.dim.terms.foldl (fun acc it => bumpD acc it.dim (t.power * it.power)) acc)
    []

/-- The normalization step of `Dimension.canonicalize`: drop accumulated
entries whose power became 0. -/
def normalizeD (ps : List (DAtom × ℚ)) : List DTerm :=
  ps.filterMap (fun p => if p.2 = 0 then none else some ⟨p.1, p.2⟩)

/-- Lexicographic comparison of character lists by code point (the order
Python's `list.sort` applies to the name keys; written out so that it
evaluates by kernel reduction, which `String.lt`'s byte-iterator form
does not). -/
def charsLt : List Char → List Char → Bool
  | [], [] => false
  | [], _ :: _ => true
  | _ :: _, [] => false
  | a :: as, b :: bs =>
      if a.toNat = b.toNat then charsLt as bs
      else a.toNat < b.toNat

/-- String comparison by code points. -/
def strLt (a b : String) : Bool := charsLt a.data b.data

/-- One step of a stable insertion sort: insert `x` before the first
element strictly greater than it. -/
def insBy (lt : α → α → Bool) (x : α) : List α → List α
  | [] => [x]
  | y :: ys => if lt x y then x :: y :: ys else y :: insBy lt x ys

/-- Stable sort (models Python's stable `list.sort(key = ...)`: ties keep
their insertion order, which is the dict's insertion order). -/
def sortBy' (lt : α → α → Bool) (l : List α) : List α :=
  l.foldl (fun acc x => insBy lt x acc) []

/-- Sort dimension terms by `term.dimension.name`. -/
def sortD (l : List DTerm) : List DTerm :=
  sortBy' (fun a b => strLt a.dim.name b.dim.name) l

/-- `Dimension.canonicalize`: flatten, collect powers, drop zeros, fall
back to `{Number¹}` when nothing remains, and sort by dimension name. -/
def Dimension.canonicalize (ts : List ODTerm) : List DTerm :=
  let n := normalizeD (collectD ts)
  if n = [] then [⟨numberAtom, 1⟩] else sortD n

/-- Lift a canonical dimension term back to an outer term, as happens when
a canonicalize result is fed to `canonicalize` again: the terms in a
canonical set reference defined dimensions, whose term set is `{self¹}`. -/
def DTerm.lift (t : DTerm) : ODTerm := ⟨t.dim.toDim, t.power⟩

/-- A `Metric.Prefix` as it matters to term algebra: `Prefix.__eq__` and
`Prefix.__hash__` use only `(base, power)`, so names/symbols cannot
influence canonicalization, `reduce` or any equality below. -/
structure Pfx where
  base : ℤ
  power : ℤ
deriving DecidableEq, Repr

/-- The power-0 "one" prefix, `Metric.Prefix("one", "1", 10, 0)`: the
prefix substituted by `Metric.Term.__init__` when `prefix` is `None`. -/
def pfx0 : Pfx := ⟨10, 0⟩

/-- Result of `Metric.Prefix.__add__`: `NotImplemented` (a `TypeError`
once it escapes the `+` operator), Python `None` (the null prefix, which
`Metric.Term.__init__` replaces by the power-0 prefix), or a prefix. -/
inductive PfxSum where
  | notImpl
  | nullPfx
  | pfx (p : Pfx)
deriving DecidableEq, Repr

/-- `Metric.Prefix.__add__` at the value level.  The source first tries
`Metric.Prefix.find(self.base, collected_power)` and otherwise constructs
(and registers) `Metric.Prefix(..., self.base, collected_power)`; both
outcomes have value `(self.base, collected_power)`, which is all that
`Prefix.__eq__` compares, so the registry is not needed here.  Note the
use of `self.base` (the left operand's base) even when the bases differ
with one power equal to 0 — this asymmetry is real in the source. -/
def Pfx.add (a b : Pfx) : PfxSum :=
  if a.base ≠ b.base ∧ a.power ≠ 0 ∧ b.power ≠ 0 then .notImpl
  else if a.power + b.power = 0 then .nullPfx
  else .pfx ⟨a.base, a.power + b.power⟩

/-- `Metric.Term.__init__`'s treatment of a prefix argument that is the
result of a prefix addition: `None` becomes the power-0 prefix
(`Metric.Prefix.find(10, 0)`), `NotImplemented` would have raised a
`TypeError` at the `+` already. -/
def PfxSum.resolve : PfxSum → Outcome Pfx
  | .notImpl => .crash
  | .nullPfx => .ok pfx0
  | .pfx p => .ok p

/-- A defined Metric as it occurs inside canonical term sets (its own term
set is `{(one-prefix, self, 1)}`): its name (compared by
`Metric.Term.__eq__`, tested against `"ten"` by `reduce`, and the sort
key of canonicalization) and its owning Dimension object. -/
structure MAtom where
  name : String
  dim : Dim
deriving DecidableEq, Repr

/-- `Metric.Term` over an atomic metric: the shape of terms inside a
canonical metric term set. -/
structure MTerm where
  pfx : Pfx
  metric : MAtom
  power : ℚ
deriving DecidableEq, Repr

/-- The `ten` metric atom (`Metric("ten", "10", Number)`). -/
def tenAtom : MAtom := ⟨"ten", numberDim⟩

/-- An outer `Metric` object as consumed by `Metric.canonicalize`: its
name, its owning Dimension object (used for the `dimension_terms` side
computation) and its canonical term set, into which flattening looks
exactly one level deep. -/
structure MetricObj where
  name : String
  dim : Dim
  terms : List MTerm
deriving DecidableEq, Repr

/-- `Metric.Term` at the outer level: the input shape of
`Metric.canonicalize`.  A Python-side `prefix=None` argument is already
the power-0 prefix by the time `canonicalize` reads it
(`Metric.Term.__init__`). -/
structure OMTerm where
  pfx : Pfx
  metric : MetricObj
  power : ℚ
deriving DecidableEq, Repr

/-- Python `int()` truncation toward zero of a rational. -/
def ratTrunc (x : ℚ) : ℤ := x.num.tdiv (x.den : ℤ)

/-- The floor of a rational (`⌊x⌋`, written with integer floor division
so that it evaluates by kernel reduction). -/
def ratFloor (x : ℚ) : ℤ := x.num.fdiv (x.den : ℤ)

/-- The per-inner-term part of the flattening loop of
`Metric.canonicalize`: per the source, `fractional = q % 1` (Python
modulo, i.e. `q - ⌊q⌋`), negated when `q < 0`, and
`whole = int(q - fractional)` (truncation toward zero — note that for
negative `q` the operand `q - fractional` is `2q - ⌊q⌋`, so whole and
fractional recombine to `q` only when `2q` is integral); then emit
`|whole|` copies at power `sign * p` plus, when the fractional part is
nonzero, one term at power `fractional * p`.  The outer prefix `opfx` is
combined (`opfx + inner prefix`) into only the first term emitted for the
whole outer term; `applied` threads that state.  Returns the emitted
terms and the updated `applied` flag. -/
def flattenInner (opfx : Pfx) (p : ℚ) (applied : Bool) (it : MTerm) :
    Outcome (List MTerm × Bool) :=
  let sign : ℚ := if 0 < it.power then 1 else -1
  let fpart : ℚ := it.power - ratFloor it.power
  let frac : ℚ := if it.power < 0 then -fpart else fpart
  let whole : ℤ := ratTrunc (it.power - frac)
  let copies := whole.natAbs
  let wholeList : Outcome (List MTerm × Bool) :=
    if copies = 0 then .ok ([], applied)
    else
      if applied then .ok (List.replicate copies ⟨it.pfx, it.metric, sign * p⟩, true)
      else
        match (opfx.add it.pfx).resolve with
        | .crash => .crash
        | .ok c =>
            .ok (⟨c, it.metric, sign * p⟩ ::
                 List.replicate (copies - 1) ⟨it.pfx, it.metric, sign * p⟩, true)
  match wholeList with
  | .crash => .crash
  | .ok (ws, applied') =>
      if frac = 0 then .ok (ws, applied')
      else
        if applied' then .ok (ws ++ [⟨it.pfx, it.metric, frac * p⟩], applied')
        else
          match (opfx.add it.pfx).resolve with
          | .crash => .crash
          | .ok c => .ok (ws ++ [⟨c, it.metric, frac * p⟩], true)

/-- Flatten one outer term of `Metric.canonicalize`: iterate the outer
term's metric's own terms, threading the `applied_outer_prefix` flag. -/
def flattenOuter (t : OMTerm) : Outcome (List MTerm) :=
  let r := t.metric.terms.foldl
    (fun acc it =>
      match acc with
      | .crash => .crash
      | .ok (out, applied) =>
          match flattenInner t.pfx t.power applied it with
          | .crash => .crash
          | .ok (ws, applied') => .ok (out ++ ws, applied'))
    (Outcome.ok ([], false))
  match r with
  | .crash => .crash
  | .ok (out, _) => .ok out

/-- The full flattening pass of `Metric.canonicalize`. -/
def flattenM (ts : List OMTerm) : Outcome (List MTerm) :=
  ts.foldl
    (fun acc t =>
      match acc with
      | .crash => .crash
      | .ok out =>
          match flattenOuter t with
          | .crash => .crash
          | .ok ws => .ok (out ++ ws))
    (Outcome.ok [])

/-- Accumulation into the insertion-ordered `metric_powers` dict, keyed by
`(prefix, metric)` (the stored values are `Metric.Term`s whose powers are
summed). -/
def bumpM : List ((Pfx × MAtom) × ℚ) → (Pfx × MAtom) → ℚ → List ((Pfx × MAtom) × ℚ)
  | [], k, q => [(k, q)]
  | (k', p) :: rest, k, q =>
      if k' = k then (k', p + q) :: rest else (k', p) :: bumpM rest k q

/-- The collect step of `Metric.canonicalize` over the flattened terms. -/
def collectM (ws : List MTerm) : List ((Pfx × MAtom) × ℚ) :=
  ws.foldl (fun acc w => bumpM acc (w.pfx, w.metric) w.power) []

/-- The normalization step of `Metric.canonicalize`: drop accumulated
terms whose power became 0. -/
def normalizeM (ps : List ((Pfx × MAtom) × ℚ)) : List MTerm :=
  ps.filterMap (fun p => if p.2 = 0 then none else some ⟨p.1.1, p.1.2, p.2⟩)

/-- Sort metric terms by `term.metric.name`. -/
def sortM (l : List MTerm) : List MTerm :=
  sortBy' (fun a b => strLt a.metric.name b.metric.name) l

/-- `Metric.canonicalize` also computes, in the same loop, the list of
`Dimension.Term(term.metric.dimension, term.power)` for the derived
metric's Dimension. -/
def dimTermsOf (ts : List OMTerm) : List ODTerm :=
  ts.map (fun t => ⟨t.metric.dim, t.power⟩)

/-- `Metric.canonicalize`: flatten (recursively distributing powers and
splitting off fractional remainders), collect powers keyed by
`(prefix, metric)`, drop zeros, fall back to `{(one-prefix, Ten)⁰}` when
nothing remains, sort by metric name, and pair the result with the
canonicalized dimension terms.  `crash` models the `TypeError` raised
when combining prefixes of different bases with both powers nonzero. -/
def Metric.canonicalize (ts : List OMTerm) : Outcome (List MTerm × List DTerm) :=
  match flattenM ts with
  | .crash => .crash
  | .ok ws =>
      let n := normalizeM (collectM ws)
      let canon := if n = [] then [⟨pfx0, tenAtom, 0⟩] else sortM n
      .ok (canon, Dimension.canonicalize (dimTermsOf ts))

/-- An atomic metric lifted to an outer `Metric` object: defined metrics
have `terms = frozenset([Metric.Term(None, self, 1)])`. -/
def MAtom.toMetric (a : MAtom) : MetricObj := ⟨a.name, a.dim, [⟨pfx0, a, 1⟩]⟩

/-- Lift a canonical metric term back to an outer term, as happens when a
canonicalize result is fed to `canonicalize` again. -/
def MTerm.lift (t : MTerm) : OMTerm := ⟨t.pfx, t.metric.toMetric, t.power⟩

/-- `ExponentTypographicalSymbols`. -/
def expSymbols : List String := ["⁰", "", "²", "³", "⁴", "⁵", "⁶", "⁷", "⁸", "⁹"]

/-- `power_as_typographical_symbol`: the superscript for small integral
powers, otherwise `"^" + text(abs(power))`.  (The text of a non-integral
power is rendered from `ℚ` here rather than from a Python float; these
strings feed only derived display names, and no claim depends on their
content beyond the single-atom power-1 case, which renders as `""`.) -/
def powSym (p : ℚ) : String :=
  if p.den = 1 ∧ p.num.natAbs ≤ 9 then (expSymbols.getD p.num.natAbs "")
  else "^" ++ toString |p|

/-- `Dimension.identify`, on names.  The source computes a (name, symbol)
pair the same way from `dimension.name` and `dimension.typographical_symbol`
respectively; atom symbols are not tracked in this model, so the symbol
component is rendered from names as well (no claim depends on the exact
symbol strings of derived entities). -/
def Dimension.identify (terms : List DTerm) : String × String :=
  let numer := (terms.filter (fun t => 0 < t.power)).foldl
    (fun s t => s ++ t.dim.name ++ powSym t.power) ""
  let denom := (terms.filter (fun t => t.power < 0)).foldl
    (fun s t => s ++ t.dim.name ++ powSym t.power) ""
  let numer := if numer = "" ∧ terms ≠ [] then "1" else numer
  let n := if denom = "" then numer else numer ++ "/" ++ denom
  if n = "1" then ("number", "number") else (n, n)

/-- The prefix contribution to `Metric.identify` (the source uses
`prefix.name`/`prefix.typographical_symbol`; prefix display names are not
tracked at the term level, so the value is rendered — no claim depends on
these strings, only on the fact that a power-0 prefix contributes nothing). -/
def pfxStr (p : Pfx) : String :=
  if p.power = 0 then "" else toString p.base ++ "^" ++ toString p.power

/-- `Metric.identify`, on names (numerator condition is `power >= 0`,
unlike the Dimension version's `power > 0`). -/
def Metric.identify (terms : List MTerm) : String × String :=
  let numer := (terms.filter (fun t => 0 ≤ t.power)).foldl
    (fun s t => s ++ pfxStr t.pfx ++ t.metric.name ++ powSym t.power) ""
  let denom := (terms.filter (fun t => t.power < 0)).foldl
    (fun s t => s ++ pfxStr t.pfx ++ t.metric.name ++ powSym t.power) ""
  let numer := if numer = "" ∧ terms ≠ [] then "1" else numer
  let n := if denom = "" then numer else numer ++ "/" ++ denom
  if n = "1" then ("number", "number") else (n, n)

/-- Frozenset equality of canonical dimension term sets (canonical lists
never repeat a key, so mutual membership with equal lengths is set
equality; Python dict lookups keyed by these frozensets compare exactly
this way). -/
def dSetEq (a b : List DTerm) : Bool :=
  a.length = b.length && a.all (· ∈ b) && b.all (· ∈ a)

/-- Frozenset equality of canonical metric term sets. -/
def mSetEq (a b : List MTerm) : Bool :=
  a.length = b.length && a.all (· ∈ b) && b.all (· ∈ a)

/-- Association-list lookup under a key equality, modelling a Python dict
lookup. -/
def alookup (keq : κ → κ → Bool) (m : List (κ × α)) (k : κ) : Option α :=
  (m.find? fun e => keq e.1 k).map (·.2)

/-- Association-list store under a key equality, modelling Python's
`dict[k] = v` (overwrites the value, keeps the first stored key, appends
new keys in insertion order). -/
def astore (keq : κ → κ → Bool) (m : List (κ × α)) (k : κ) (v : α) : List (κ × α) :=
  if (m.find? fun e => keq e.1 k).isSome then
    m.map (fun e => if keq e.1 k then (e.1, v) else e)
  else m ++ [(k, v)]

/-- A `Metric.Prefix` with its registry-visible fields. -/
structure PrefixRec where
  name : String
  symbol : String
  base : ℤ
  power : ℤ
deriving DecidableEq, Repr

/-- The global registries and cached parsing patterns.  Dimension and
Metric instances are identified by allocation ids (`nextId` allocates);
the by-terms and by-symbol tables map to ids.  The cached patterns are
modelled by their token lists (`None` = invalidated); `base_metric_of`
maps a Dimension's canonical terms to the first Metric id defined in it. -/
structure Registry where
  dimsByTerms : List (List DTerm × Nat)
  dimsBySymbol : List (String × Nat)
  dimPattern : Option (List String)
  metricsByTerms : List (List MTerm × Nat)
  metricsBySymbol : List (String × Nat)
  metricPattern : Option (List String × List String)
  pfxByValue : List ((ℤ × ℤ) × PrefixRec)
  pfxBySymbol : List (String × PrefixRec)
  baseMetricOf : List (List DTerm × Nat)
  nextId : Nat
deriving DecidableEq, Repr

/-- `Dimension.define`: store under the canonical terms and the symbol,
and invalidate the Dimension parsing pattern (`parsing_pattern_string`
and `parsing_pattern` are both set to `None`). -/
def Dimension.define (r : Registry) (terms : List DTerm) (symbol : String) (i : Nat) :
    Registry :=
  { r with
    dimsByTerms := astore dSetEq r.dimsByTerms terms i
    dimsBySymbol := astore (· == ·) r.dimsBySymbol symbol i
    dimPattern := none }

/-- `Metric.define`: store under the canonical terms and the symbol, make
this the base metric of its Dimension if that Dimension has none yet, and
invalidate the Metric parsing pattern. -/
def Metric.define (r : Registry) (terms : List MTerm) (symbol : String)
    (dimTerms : List DTerm) (i : Nat) : Registry :=
  { r with
    metricsByTerms := astore mSetEq r.metricsByTerms terms i
    metricsBySymbol := astore (· == ·) r.metricsBySymbol symbol i
    baseMetricOf :=
      if (alookup dSetEq r.baseMetricOf dimTerms).isSome then r.baseMetricOf
      else r.baseMetricOf ++ [(dimTerms, i)]
    metricPattern := none }

/-- `Metric.Prefix.find`. -/
def PrefixRec.find (r : Registry) (base power : ℤ) : Option PrefixRec :=
  alookup (fun a b => a = b) r.pfxByValue (base, power)

/-- `Metric.Prefix.define`: raises `KeyError` (`none` here) when the
`(base, power)` pair is already registered; otherwise stores the prefix
in both prefix tables.  Note: unlike `Dimension.define` and
`Metric.define`, no parsing pattern is invalidated. -/
def PrefixRec.define (r : Registry) (p : PrefixRec) : Option Registry :=
  if (PrefixRec.find r p.base p.power).isSome then none
  else some { r with
    pfxByValue := r.pfxByValue ++ [((p.base, p.power), p)]
    pfxBySymbol := astore (· == ·) r.pfxBySymbol p.symbol p }

/-- `Metric.Prefix.__new__`/`__init__`: resolve an existing flyweight by
`(base, power)` — in which case the existing prefix is returned, nothing
is registered, and no error is raised — otherwise create and define.  The
`Bool` reports whether an existing prefix was reused.  Because `__new__`
only defines after `find` returned nothing, the duplicate check inside
`define` cannot fire on this path, so construction never raises. -/
def PrefixRec.new (r : Registry) (name symbol : String) (base power : ℤ) :
    Registry × PrefixRec × Bool :=
  match PrefixRec.find r base power with
  | some p => (r, p, true)
  | none =>
      let p : PrefixRec := ⟨name, symbol, base, power⟩
      match PrefixRec.define r p with
      | some r' => (r', p, false)
      | none => (r, p, false)

/-- `Dimension.__new__`/`__init__` in "defined" mode (a name, no terms and
no derivation): always allocates a fresh instance with term set
`{self¹}` and registers it (no registry lookup happens on this path). -/
def Dimension.newDefined (r : Registry) (name : String) (symbol : Option String) :
    Registry × Nat :=
  let i := r.nextId
  let terms : List DTerm := [⟨⟨name⟩, 1⟩]
  (Dimension.define { r with nextId := i + 1 } terms (symbol.getD name) i, i)

/-- `Dimension.__new__`/`__init__` with `terms=...`: canonicalize, look
the canonical set up in `defined_dimensions_by_terms` and return the
registered instance on a hit; otherwise allocate a fresh instance, and
register it only when a name was supplied. -/
def Dimension.newFromTerms (r : Registry) (ts : List ODTerm)
    (name : Option String) (symbol : Option String) : Registry × Nat :=
  let canon := Dimension.canonicalize ts
  match alookup dSetEq r.dimsByTerms canon with
  | some i => (r, i)
  | none =>
      let i := r.nextId
      let r' := { r with nextId := i + 1 }
      match name with
      | some n =>
          let _ := n
          (Dimension.define r' canon (symbol.getD (Dimension.identify canon).2) i, i)
      | none => (r', i)

/-- `Dimension.__new__`/`__init__` with `derivation=...`: canonicalize the
derivation's terms but — unlike the `terms=` path — perform no registry
lookup; always allocate a fresh instance, registering it when named. -/
def Dimension.newFromDerivation (r : Registry) (d : List DTerm)
    (name : Option String) (symbol : Option String) : Registry × Nat :=
  let canon := Dimension.canonicalize (d.map DTerm.lift)
  let i := r.nextId
  let r' := { r with nextId := i + 1 }
  match name with
  | some n =>
      let _ := n
      (Dimension.define r' canon (symbol.getD (Dimension.identify canon).2) i, i)
  | none => (r', i)

/-- `Metric.__new__`/`__init__` in "defined" mode: always allocates a
fresh instance with term set `{(one-prefix, self)¹}` and registers it. -/
def Metric.newDefined (r : Registry) (name : String) (symbol : Option String)
    (dim : Dim) : Registry × Nat :=
  let i := r.nextId
  let terms : List MTerm := [⟨pfx0, ⟨name, dim⟩, 1⟩]
  (Metric.define { r with nextId := i + 1 } terms (symbol.getD name) dim.terms i, i)

/-- `Metric.__new__`/`__init__` with `terms=...`: canonicalize, return the
registered instance on a by-terms hit, otherwise allocate fresh and
register only when named.  `crash` propagates a canonicalization
`TypeError`. -/
def Metric.newFromTerms (r : Registry) (ts : List OMTerm)
    (name : Option String) (symbol : Option String) : Outcome (Registry × Nat) :=
  match Metric.canonicalize ts with
  | .crash => .crash
  | .ok (canon, dcanon) =>
      match alookup mSetEq r.metricsByTerms canon with
      | some i => .ok (r, i)
      | none =>
          let i := r.nextId
          let r' := { r with nextId := i + 1 }
          match name with
          | some n => .ok (Metric.define r' canon (symbol.getD n) dcanon i, i)
          | none => .ok (r', i)

/-- `Metric.__new__`/`__init__` with `derivation=...`: canonicalize the
derivation's terms but perform no registry lookup; always allocate a
fresh instance, registering it when named. -/
def Metric.newFromDerivation (r : Registry) (m : MetricObj)
    (name : Option String) (symbol : Option String) : Outcome (Registry × Nat) :=
  match Metric.canonicalize (m.terms.map MTerm.lift) with
  | .crash => .crash
  | .ok (canon, dcanon) =>
      let i := r.nextId
      let r' := { r with nextId := i + 1 }
      match name with
      | some n => .ok (Metric.define r' canon (symbol.getD n) dcanon i, i)
      | none => .ok (r', i)

/-- `Dimension.rebuild_parsing_pattern`: the alternation of all registered
dimension symbols, longest first (stable on ties). -/
def Dimension.rebuildPattern (r : Registry) : List String :=
  sortBy' (fun a b => b.length < a.length) (r.dimsBySymbol.map (·.1))

/-- `Metric.rebuild_parsing_pattern`: prefix-symbol and metric-symbol
alternations, each longest first (the negative-lookahead conflict
exclusions refine how a prefix token may match but not which symbols are
recognizable, which is all the claims below consult). -/
def Metric.rebuildPattern (r : Registry) : List String × List String :=
  (sortBy' (fun a b => b.length < a.length) (r.pfxBySymbol.map (·.1)),
   sortBy' (fun a b => b.length < a.length) (r.metricsBySymbol.map (·.1)))

/-- The pattern used by the next `Metric.symbol_string_to_terms` call:
the cached one if present, else a fresh rebuild (which the source also
caches; the cached value is what matters here). -/
def Metric.patternForParse (r : Registry) : List String × List String :=
  r.metricPattern.getD (Metric.rebuildPattern r)

/-- The pattern used by the next `Dimension.symbol_string_to_terms` call. -/
def Dimension.patternForParse (r : Registry) : List String :=
  r.dimPattern.getD (Dimension.rebuildPattern r)

/-- Integer-based exact exponentiation `b ** e` for an integral rational
exponent; `none` when the exponent is not integral (the source computes a
float then, which is not exactly representable; no claim exercises that)
or on `0 ** negative` (a Python `ZeroDivisionError`). -/
def qex (b : ℤ) (e : ℚ) : Option ℚ :=
  if e.den = 1 then
    if b = 0 ∧ e.num < 0 then none else some ((b : ℚ) ^ e.num)
  else none

/-- A `Quantity`: a magnitude and a Metric. -/
structure Qty where
  mag : ℚ
  metric : MetricObj
deriving DecidableEq, Repr

/-- The magnitude/term accumulation loop of `Metric.reduce`: `ten` terms
fold entirely into the magnitude (`10**power * base**(prefixPower*power)`
when the power is nonzero, and vanish when it is 0); other terms
contribute `base**(prefixPower*power)` to the magnitude and are re-emitted
with no prefix. -/
def Metric.reduceAux (terms : List MTerm) : Option (ℚ × List MTerm) :=
  terms.foldl
    (fun (acc : Option (ℚ × List MTerm)) (t : MTerm) =>
      match acc with
      | none => none
      | some (mag, out) =>
          if t.metric.name = "ten" then
            if t.power ≠ 0 then
              match qex 10 t.power, qex t.pfx.base ((t.pfx.power : ℚ) * t.power) with
              | some e1, some e2 => some (mag * e1 * e2, out)
              | _, _ => none
            else some (mag, out)
          else
            match qex t.pfx.base ((t.pfx.power : ℚ) * t.power) with
            | some e => some (mag * e, out ++ [⟨pfx0, t.metric, t.power⟩])
            | none => none)
    (some (1, []))

/-- Build the derived Dimension object a `Metric.canonicalize` result
refers to.  (The `Dimension(terms = ...)` call would return the registered
flyweight when one exists; only the name differs in that case, and the
library consults derived-dimension names only through the
`name == "number"` scalar test, which `Dimension.identify` reproduces for
the identity term set.) -/
def mkDim (canon : List DTerm) : Dim :=
  ⟨(Dimension.identify canon).1, canon⟩

/-- Build the derived Metric object of a `Metric.canonicalize` result.
(The `Metric(terms = ...)` call would return the registered flyweight when
one exists; only the display name differs in that case, and derived-metric
names are consulted only by the conversion machinery's name comparisons,
which no claim's inputs collide on.) -/
def mkMetric (canon : List MTerm) (dcanon : List DTerm) : MetricObj :=
  ⟨(Metric.identify canon).1, mkDim dcanon, canon⟩

/-- `Metric.__mul__` for two Metrics: `Metric(terms = [Term(None, self, 1),
Term(None, other, 1)])`. -/
def Metric.mul (a b : MetricObj) : Outcome MetricObj :=
  match Metric.canonicalize [⟨pfx0, a, 1⟩, ⟨pfx0, b, 1⟩] with
  | .crash => .crash
  | .ok (c, d) => .ok (mkMetric c d)

/-- `Metric.__truediv__` for two Metrics. -/
def Metric.div (a b : MetricObj) : Outcome MetricObj :=
  match Metric.canonicalize [⟨pfx0, a, 1⟩, ⟨pfx0, b, -1⟩] with
  | .crash => .crash
  | .ok (c, d) => .ok (mkMetric c d)

/-- `Metric.__pow__`: `Metric(terms = [Term(None, self, power)])`. -/
def Metric.pow (a : MetricObj) (p : ℚ) : Outcome MetricObj :=
  match Metric.canonicalize [⟨pfx0, a, p⟩] with
  | .crash => .crash
  | .ok (c, d) => .ok (mkMetric c d)

/-- `Metric.reduce`: a Quantity of the accumulated magnitude at the
prefix-free Metric derived from the re-emitted terms. -/
def Metric.reduce (m : MetricObj) : Option Qty :=
  match Metric.reduceAux m.terms with
  | none => none
  | some (mag, rts) =>
      match Metric.canonicalize (rts.map MTerm.lift) with
      | .crash => none
      | .ok (c, d) => some ⟨mag, mkMetric c d⟩

/-- The `Metric` / `Metric` case of `Metric.__eq__` (the flyweight
identity shortcut agrees with it by reflexivity): reduce both sides and
compare the reduced magnitudes and the reduced, prefix-free term sets.
`none` models magnitudes the exact model leaves undefined. -/
def Metric.eq (a b : MetricObj) : Option Bool :=
  match Metric.reduce a, Metric.reduce b with
  | some ra, some rb =>
      some (ra.mag = rb.mag && mSetEq ra.metric.terms rb.metric.terms)
  | _, _ => none

/-- The `one` Metric (`Metric("one", "1", Number, derivation = Ten**0)`):
its canonical term set is the fallback `{(one-prefix, Ten)⁰}`. -/
def oneObj : MetricObj := ⟨"one", numberDim, [⟨pfx0, tenAtom, 0⟩]⟩

/-- The `ten` Metric, a defined metric. -/
def tenObj : MetricObj := tenAtom.toMetric

/-- `Quantity.__mul__` restricted to Quantity operands: multiply the
magnitudes and the Metrics. -/
def Qty.mul (a b : Qty) : Outcome Qty :=
  match Metric.mul a.metric b.metric with
  | .crash => .crash
  | .ok m => .ok ⟨a.mag * b.mag, m⟩

/-- `Quantity.__truediv__` restricted to Quantity operands (`crash` models
`ZeroDivisionError`). -/
def Qty.div (a b : Qty) : Outcome Qty :=
  if b.mag = 0 then .crash
  else
    match Metric.div a.metric b.metric with
    | .crash => .crash
    | .ok m => .ok ⟨a.mag / b.mag, m⟩

/-- `Quantity.reduce`: reduce the Metric and fold its scale into the
magnitude. -/
def Qty.reduce (q : Qty) : Option Qty :=
  match Metric.reduce q.metric with
  | none => none
  | some r => some ⟨q.mag * r.mag, r.metric⟩

/-- `Metric.numerator`: the Metric derived from the positive-power terms. -/
def Metric.numerator (m : MetricObj) : Outcome MetricObj :=
  match Metric.canonicalize ((m.terms.filter (fun t => 0 < t.power)).map MTerm.lift) with
  | .crash => .crash
  | .ok (c, d) => .ok (mkMetric c d)

/-- `Metric.denominator`: `One / Metric(negative-power terms)`. -/
def Metric.denominator (m : MetricObj) : Outcome MetricObj :=
  match Metric.canonicalize ((m.terms.filter (fun t => t.power < 0)).map MTerm.lift) with
  | .crash => .crash
  | .ok (c, d) => Metric.div oneObj (mkMetric c d)

/-- A registered Conversion: a scalar ratio (`ScalarConversion`, holding
its factor Quantity) or a function pair (`FunctionConversion`, holding the
two endpoint Metrics and both directions, modelled as magnitude functions
whose result Quantity is rebuilt at the stored endpoint Metric — the shape
of every function the catalog registers). -/
inductive ConvDef where
  | scalar (factor : Qty)
  | func (fromM toM : MetricObj) (fromFn toFn : ℚ → Qty)

/-- The conversion-resolution slice of the global state:
`Metric.conversions` (keyed by the Conversion's ratio Metric) and
`Metric.base_metric_of` (keyed by a Dimension's canonical terms). -/
structure ConvSt where
  convs : List (MetricObj × ConvDef)
  baseMetricOf : List (List DTerm × MetricObj)

/-- A `Metric.conversions` dict lookup: Python compares hashes (XORed
term hashes) and then `__eq__`; equal canonical term sets match, and
unequal ones have unequal hashes up to astronomically unlikely string-hash
collisions, so the dict behaves as term-set lookup.  Returns the index of
the match, as a stand-in for the Conversion object's identity. -/
def convFind (st : ConvSt) (m : MetricObj) : Option Nat :=
  st.convs.findIdx? (fun e => mSetEq e.1.terms m.terms)

/-- Membership test `Metric.Term(None, metric, power) in terms`:
`Metric.Term.__eq__` compares the prefix, the metric's *name* and the
power. -/
def termNameMem (ts : List MTerm) (p : Pfx) (nm : String) (pw : ℚ) : Bool :=
  ts.any (fun t => t.pfx = p && t.metric.name = nm && t.power = pw)

/-- Outcome of applying a conversion to a Quantity. -/
inductive ARes where
  | ok (q : Qty)
  | raisesMCE
  | crash
deriving Repr

/-- `Metric.ScalarConversion.__call__`: reduce the quantity and the
factor; divide when the quantity's reduced Metric occurs at power 1 in the
factor's terms, multiply when it occurs at power −1; otherwise compare
numerators/denominators (the factor-label corner), and raise
`MetricConversionError` when nothing matches. -/
def applyScalar (factor : Qty) (q : Qty) : ARes :=
  match q.reduce, factor.reduce with
  | some rq, some rf =>
      if termNameMem rf.metric.terms pfx0 rq.metric.name 1 then
        match rq.div rf with
        | .ok r => .ok r
        | .crash => .crash
      else if termNameMem rf.metric.terms pfx0 rq.metric.name (-1) then
        match rq.mul rf with
        | .ok r => .ok r
        | .crash => .crash
      else
        match Metric.numerator rq.metric, Metric.denominator rq.metric,
              Metric.numerator rf.metric, Metric.denominator rf.metric with
        | .ok nq, .ok dq, .ok nf, .ok df =>
            match Metric.eq nq nf, Metric.eq dq df, Metric.eq nq df, Metric.eq dq nf with
            | some b1, some b2, some b3, some b4 =>
                if b1 || b2 then
                  match rq.div rf with
                  | .ok r => .ok r
                  | .crash => .crash
                else if b3 || b4 then
                  match rq.mul rf with
                  | .ok r => .ok r
                  | .crash => .crash
                else .raisesMCE
            | _, _, _, _ => .crash
        | _, _, _, _ => .crash
  | _, _ => .crash

/-- `Metric.FunctionConversion.__call__`: dispatch on whether the incoming
Quantity's Metric equals the `to` side or the `from` side; any other
Metric raises `MetricConversionError`. -/
def applyFunc (fromM toM : MetricObj) (fromFn toFn : ℚ → Qty) (q : Qty) : ARes :=
  match Metric.eq q.metric toM with
  | none => .crash
  | some true => .ok (toFn q.mag)
  | some false =>
      match Metric.eq q.metric fromM with
      | none => .crash
      | some true => .ok (fromFn q.mag)
      | some false => .raisesMCE

/-- The callable `Metric.find_conversion`/`Metric.to` can hand back,
reified by the data its closure captures (conversions found in the
registry are referenced by index). -/
inductive FoundConv where
  | identity
  | scale (mag : ℚ) (toM : MetricObj)
  | direct (i : Nat)
  | invScaled (mag : ℚ) (i : Nat) (toM : MetricObj)
  | rooted (i : Nat) (p : ℤ) (inv : Bool)
deriving DecidableEq, Repr

/-- Outcome of `Metric.to` / `Metric.find_conversion`. -/
inductive RRes where
  | conv (c : FoundConv)
  | nothing
  | raisesMCE
  | crash
  | fuelOut
deriving DecidableEq, Repr

/-- Apply a registered Conversion (by registry index) to a Quantity. -/
def ConvSt.applyIdx (st : ConvSt) (i : Nat) (q : Qty) : ARes :=
  match st.convs.get? i with
  | none => .crash
  | some (_, .scalar f) => applyScalar f q
  | some (_, .func fm tm ff tf) => applyFunc fm tm ff tf q

/-- Apply a reified resolver result to a Quantity.  The root-factored
callable computes `conversion(q ** (1/p)) ** p`, whose magnitude takes a
numeric root; the exact model leaves that undefined (`crash`), and no
claim evaluates it. -/
def applyFound (st : ConvSt) (c : FoundConv) (q : Qty) : ARes :=
  match c with
  | .identity =>
      match Qty.mul ⟨1, oneObj⟩ q with
      | .ok r => .ok r
      | .crash => .crash
  | .scale mag toM => .ok ⟨mag * q.mag, toM⟩
  | .direct i => st.applyIdx i q
  | .invScaled mag i toM =>
      match st.applyIdx i q with
      | .ok r => .ok ⟨mag * r.mag, toM⟩
      | e => e
  | .rooted _ _ _ => .crash

/-- `abs` of a rational, written with an explicit sign test so that it
evaluates by kernel reduction. -/
def absQ (q : ℚ) : ℚ := if q < 0 then -q else q

/-- The first term of maximal `abs(power)`, as Python's
`max(terms, key = lambda t: abs(t.power))` picks it from the iteration
order (modelled here as the canonical list order; all uses below either
have a unique maximum or hold at every choice). -/
def argmaxAbs (ts : List MTerm) : Option MTerm :=
  ts.foldl
    (fun acc t =>
      match acc with
      | none => some t
      | some b => if absQ b.power < absQ t.power then some t else some b)
    none

/-- `range(highest_power, 1, -1)`: the integers from `hp` down to 2
(empty when `hp < 2`, in particular for negative `hp`). -/
def downTo2 (hp : ℤ) : List ℤ :=
  (List.range (hp - 1).toNat).map (fun k => hp - k)

/-- The descending scan of the integer-root factoring stage: for `p` from
`hp` down to 2, test `metric_to_find ** (1/p)` and its inverse against the
conversion table, returning `q ↦ conversion(q ** (1/p)) ** p` (reified as
`rooted`) on the first hit. -/
def rootScan (st : ConvSt) (mtf : MetricObj) (hp : ℤ) : Outcome (Option FoundConv) :=
  (downTo2 hp).foldl
    (fun acc (p : ℤ) =>
      match acc with
      | .crash => .crash
      | .ok (some c) => .ok (some c)
      | .ok none =>
          match Metric.pow mtf (1 / (p : ℚ)) with
          | .crash => .crash
          | .ok f =>
              match convFind st f with
              | some i => .ok (some (.rooted i p false))
              | none =>
                  match Metric.div oneObj f with
                  | .crash => .crash
                  | .ok invf =>
                      match convFind st invf with
                      | some i => .ok (some (.rooted i p true))
                      | none => .ok none)
    (Outcome.ok none)

/-- The integer-root factoring stage of `find_conversion` as implemented:
`highest_power = max(terms, key = lambda t: abs(t.power)).power` — the
*signed* power of the first maximal-`abs` term — then the descending scan
from it.  `crash` models the `TypeError` of `range` on a non-integral
power and the `ValueError` of `max` on an empty term list. -/
def rootStage (st : ConvSt) (mtf : MetricObj) : Outcome (Option FoundConv) :=
  match argmaxAbs mtf.terms with
  | none => .crash
  | some tmax =>
      if tmax.power.den ≠ 1 then .crash
      else rootScan st mtf tmax.power.num

/-- The integer-root factoring stage as the specification words it: "let
`p` be the highest absolute power present in `ratioUnit`'s terms.  For `p`
descending to 2, test whether `ratioUnit^(1/p)` (or its inverse) is
registered".  This definition follows the spec's words (the comparison
definition for the claim about this strategy); it differs from
`rootStage` exactly in the starting exponent: the maximum of `|power|`
over the terms rather than the signed power of a maximal-`abs` term. -/
def rootStageAsSpecified (st : ConvSt) (mtf : MetricObj) : Outcome (Option FoundConv) :=
  match mtf.terms.map (fun t => absQ t.power) with
  | [] => .crash
  | x :: xs =>
      let hp := xs.foldl (fun a b => if a < b then b else a) x
      if hp.den ≠ 1 then .crash
      else rootScan st mtf hp.num

/-- Accumulator of the factor-label loop: still folding, or stopped with
a propagating outcome. -/
inductive FLAcc where
  | run (q : Qty)
  | stop (r : RRes)

/-- The factor-label stage of `find_conversion`: for each term of the
ratio Metric, convert `1 * term.metric` to the base Metric of the term's
Dimension (a recursive `Metric.to` call, through `recTo`) and fold the
result into the accumulator by multiplication or division according to
the term's power sign.  If the accumulator ends at the dimensionless
identity, the conversion scales by its magnitude into
`reduced_to.metric`; otherwise `find_conversion` returns `None`.  An
absent base metric is a `KeyError` (`crash`); a nested
`MetricConversionError` propagates uncaught. -/
def factorLabel (recTo : MetricObj → MetricObj → RRes) (st : ConvSt)
    (mtf : MetricObj) (rtM : MetricObj) : RRes :=
  let r := mtf.terms.foldl
    (fun acc t =>
      match acc with
      | .stop r => .stop r
      | .run accq =>
          match alookup dSetEq st.baseMetricOf t.metric.dim.terms with
          | none => .stop .crash
          | some si =>
              match recTo t.metric.toMetric si with
              | .conv c =>
                  match applyFound st c ⟨1, t.metric.toMetric⟩ with
                  | .ok r =>
                      match (if 0 < t.power then accq.mul r else accq.div r) with
                      | .ok accq' => FLAcc.run accq'
                      | .crash => .stop .crash
                  | .raisesMCE => .stop .raisesMCE
                  | .crash => .stop .crash
              | .nothing => .stop .crash
              | e => .stop e)
    (FLAcc.run ⟨1, oneObj⟩)
  match r with
  | .stop r => r
  | .run accq =>
      match Metric.eq accq.metric oneObj with
      | none => .crash
      | some true => .conv (.scale accq.mag rtM)
      | some false => .nothing

/-- The body of `Metric.find_conversion`, parametrized by the recursive
`Metric.to` used in the factor-label stage.  Strategy order as in the
source: pure-prefix (ratio reduces to the identity), direct table lookup,
inverse table lookup, integer-root factoring, factor-label chaining,
`None`. -/
def findBody (recTo : MetricObj → MetricObj → RRes) (st : ConvSt)
    (a b : MetricObj) : RRes :=
  match Metric.reduce a, Metric.reduce b with
  | some rf, some rt =>
      match rf.div rt with
      | .crash => .crash
      | .ok red =>
          match Metric.eq red.metric oneObj with
          | none => .crash
          | some true => .conv (.scale red.mag b)
          | some false =>
              let mtf := red.metric
              match convFind st mtf with
              | some i => .conv (.direct i)
              | none =>
                  match Metric.div oneObj mtf with
                  | .crash => .crash
                  | .ok inv =>
                      match convFind st inv with
                      | some i => .conv (.invScaled red.mag i b)
                      | none =>
                          match rootStage st mtf with
                          | .crash => .crash
                          | .ok (some c) => .conv c
                          | .ok none => factorLabel recTo st mtf rt.metric
  | _, _ => .crash

/-- The body of `Metric.to`, parametrized by the recursive
`find_conversion`: the identity shortcut, the Dimension precondition
(raising `MetricConversionError` before any resolution), then resolution,
raising when it returns `None`. -/
def toBody (recFind : MetricObj → MetricObj → RRes) (a b : MetricObj) : RRes :=
  match Metric.eq a b with
  | none => .crash
  | some true => .conv .identity
  | some false =>
      if ¬ dSetEq a.dim.terms b.dim.terms then .raisesMCE
      else
        match recFind a b with
        | .conv c => .conv c
        | .nothing => .raisesMCE
        | e => e

/-- One step of the mutual `to`/`find_conversion` recursion (mode `true`
is `Metric.to`, mode `false` is `Metric.find_conversion`). -/
def resolveStep (ih : Bool → ConvSt → MetricObj → MetricObj → RRes)
    (mode : Bool) (st : ConvSt) (a b : MetricObj) : RRes :=
  if mode then toBody (ih false st) a b
  else findBody (ih true st) st a b

/-- The fuel-indexed mutual recursion of `Metric.to` and
`Metric.find_conversion`.  The source recursion is unbounded (the
factor-label stage re-enters `Metric.to`); `fuelOut` reports that the
modelled recursion depth was exhausted, and a computation whose value is
`fuelOut` for *every* fuel is one on which the source recurses forever
(surfacing as a `RecursionError`, not a `MetricConversionError`). -/
def resolve : Nat → Bool → ConvSt → MetricObj → MetricObj → RRes
  | 0 => fun _ _ _ _ => .fuelOut
  | n + 1 => resolveStep (resolve n)

/-- `Metric.to` at a given recursion-depth budget. -/
def Metric.toConv (fuel : Nat) (st : ConvSt) (a b : MetricObj) : RRes :=
  resolve fuel true st a b

/-- `Metric.find_conversion` at a given recursion-depth budget. -/
def Metric.findConversion (fuel : Nat) (st : ConvSt) (a b : MetricObj) : RRes :=
  resolve fuel false st a b

/-! ## Concrete catalog entries

The atoms, prefixes, Metrics and registry/conversion states below model
the library's own registrations (`src/__init__.py` and
`src/united_states_customary.py`) as far as the concrete instances of the
claims need them. -/

/-- The `length` Dimension (`Dimension("length", "L")`). -/
def lengthDim : Dim := DAtom.toDim ⟨"length"⟩

/-- The `time` Dimension. -/
def timeDim : Dim := DAtom.toDim ⟨"time"⟩

/-- The `mass` Dimension. -/
def massDim : Dim := DAtom.toDim ⟨"mass"⟩

/-- The `temperature` Dimension. -/
def tempDim : Dim := DAtom.toDim ⟨"temperature"⟩

/-- `Metric("meter", "m", Length)`, as an atom and as a Metric object. -/
def meterAtom : MAtom := ⟨"meter", lengthDim⟩

/-- The `meter` Metric object. -/
def meterObj : MetricObj := meterAtom.toMetric

/-- `Metric("inch", ..., Length)` (from the US-customary catalog). -/
def inchAtom : MAtom := ⟨"inch", lengthDim⟩

/-- The `inch` Metric object. -/
def inchObj : MetricObj := inchAtom.toMetric

/-- `Metric("foot", ..., Length)`. -/
def footAtom : MAtom := ⟨"foot", lengthDim⟩

/-- `Metric("gram", "g", Mass)`. -/
def gramAtom : MAtom := ⟨"gram", massDim⟩

/-- `Metric("second", "s", Time)`. -/
def secondAtom : MAtom := ⟨"second", timeDim⟩

/-- `Metric("kelvin", "K", Temperature)`. -/
def kelvinAtom : MAtom := ⟨"kelvin", tempDim⟩

/-- The `kelvin` Metric object. -/
def kelvinObj : MetricObj := kelvinAtom.toMetric

/-- `Metric("celsius", "°C", Temperature)`. -/
def celsiusAtom : MAtom := ⟨"celsius", tempDim⟩

/-- The `celsius` Metric object. -/
def celsiusObj : MetricObj := celsiusAtom.toMetric

/-- `Metric("rankine", "°R", Temperature)`. -/
def rankineAtom : MAtom := ⟨"rankine", tempDim⟩

/-- The `rankine` Metric object. -/
def rankineObj : MetricObj := rankineAtom.toMetric

/-- The SI prefix `kilo` (base 10, power 3) at the value level. -/
def kiloP : Pfx := ⟨10, 3⟩

/-- The SI prefix `mega` (base 10, power 6). -/
def megaP : Pfx := ⟨10, 6⟩

/-- The SI prefix `giga` (base 10, power 9). -/
def gigaP : Pfx := ⟨10, 9⟩

/-- The SI prefix `milli` (base 10, power −3). -/
def milliP : Pfx := ⟨10, -3⟩

/-- The SI prefix `hecto` (base 10, power 2). -/
def hectoP : Pfx := ⟨10, 2⟩

/-- The SI prefix `deca` (base 10, power 1). -/
def decaP : Pfx := ⟨10, 1⟩

/-- The IEC binary prefix `kibi` (base 2, power 10). -/
def kibiP : Pfx := ⟨2, 10⟩

/-- `Kilo * Meter`: the canonical term set `{(kilo, meter)¹}` (checked
below against `Metric.canonicalize`). -/
def kiloMeter : MetricObj := ⟨"kilometer", lengthDim, [⟨kiloP, meterAtom, 1⟩]⟩

/-- `Kibi * Meter`: the canonical term set `{(kibi, meter)¹}`. -/
def kibiMeter : MetricObj := ⟨"kibimeter", lengthDim, [⟨kibiP, meterAtom, 1⟩]⟩

/-- `(Hecto*Meter) * (Deca*Gram)`: scale 10³ over `meter·gram`. -/
def hmDag : MetricObj :=
  ⟨"hectometerdecagram", ⟨"lengthmass", [⟨⟨"length"⟩, 1⟩, ⟨⟨"mass"⟩, 1⟩]⟩,
   [⟨hectoP, gramAtom, 1⟩, ⟨decaP, meterAtom, 1⟩]⟩

/-- `(Deca*Meter) * (Hecto*Gram)`: also scale 10³ over `meter·gram`, with
a different canonical term set. -/
def dmHag : MetricObj :=
  ⟨"decameterhectogram", ⟨"lengthmass", [⟨⟨"length"⟩, 1⟩, ⟨⟨"mass"⟩, 1⟩]⟩,
   [⟨decaP, gramAtom, 1⟩, ⟨hectoP, meterAtom, 1⟩]⟩

/-- The dimension named `foo` carrying the identity term set `{number¹}`,
constructible as `Dimension(name = "foo", derivation = Length/Length)`
(the derivation path names the canonicalized identity set without a
registry lookup). -/
def fooNumberDim : Dim := ⟨"foo", [⟨numberAtom, 1⟩]⟩

/-- A fresh Dimension with two conversionless Metrics (`Metric("foo1",
...)`, `Metric("foo2", ...)` in a `Dimension("fdim")`): the state on which
the factor-label strategy recurses forever. -/
def fdim : Dim := DAtom.toDim ⟨"fdim"⟩

/-- `Metric("foo1", ..., fdim)` — the first Metric of `fdim`, hence its
base metric. -/
def foo1Obj : MetricObj := MAtom.toMetric ⟨"foo1", fdim⟩

/-- `Metric("foo2", ..., fdim)`. -/
def foo2Obj : MetricObj := MAtom.toMetric ⟨"foo2", fdim⟩

/-- The conversion state after defining `foo1` and `foo2`: no conversions,
`foo1` the base metric of `fdim`. -/
def fooSt : ConvSt := ⟨[], [(fdim.terms, foo1Obj)]⟩

/-- A conversion state with no registered Conversions whose base metric
for the `fdim` Dimension is `foo2`: converting `foo1` to `foo2` then
re-enters `Metric.to(foo1 → foo2)` from the factor-label stage. -/
def fooSt2 : ConvSt := ⟨[], [(fdim.terms, foo2Obj)]⟩

/-- The reduced ratio Metric `foo1 / foo2` (the value of
`reduced_from / reduced_to` inside `find_conversion`). -/
def fooRatio : MetricObj :=
  ⟨"foo1/foo2", numberDim, [⟨pfx0, ⟨"foo1", fdim⟩, 1⟩, ⟨pfx0, ⟨"foo2", fdim⟩, -1⟩]⟩

/-- The inverse ratio `foo2 / foo1` (the value of `One / metric_to_find`). -/
def fooRatioInv : MetricObj :=
  ⟨"foo2/foo1", numberDim, [⟨pfx0, ⟨"foo1", fdim⟩, -1⟩, ⟨pfx0, ⟨"foo2", fdim⟩, 1⟩]⟩

/-- `meter/inch`, the ratio Metric `ScalarConversion(Quantity(0.0254,
Meter / Inch))` is registered under. -/
def meterPerInch : MetricObj :=
  ⟨"meter/inch", numberDim, [⟨pfx0, inchAtom, -1⟩, ⟨pfx0, meterAtom, 1⟩]⟩

/-- A conversion state holding only the inch→meter scalar conversion,
with `meter` the base metric of `length`. -/
def usSt : ConvSt :=
  ⟨[(meterPerInch, .scalar ⟨254/10000, meterPerInch⟩)],
   [(lengthDim.terms, meterObj)]⟩

/-- `celsius/kelvin`, the ratio Metric the Celsius↔Kelvin
`FunctionConversion` is registered under. -/
def celsiusPerKelvin : MetricObj :=
  ⟨"celsius/kelvin", numberDim, [⟨pfx0, celsiusAtom, 1⟩, ⟨pfx0, kelvinAtom, -1⟩]⟩

/-- `rankine/kelvin`, the ratio Metric the Rankine↔Kelvin
`FunctionConversion` is registered under. -/
def rankinePerKelvin : MetricObj :=
  ⟨"rankine/kelvin", numberDim, [⟨pfx0, kelvinAtom, -1⟩, ⟨pfx0, rankineAtom, 1⟩]⟩

/-- The Celsius→Kelvin conversion function `c ↦ (c + 273.15) ⋅ Kelvin`. -/
def celsiusToKelvinFn (c : ℚ) : Qty := ⟨c + 27315/100, kelvinObj⟩

/-- The Kelvin→Celsius conversion function. -/
def kelvinToCelsiusFn (k : ℚ) : Qty := ⟨k - 27315/100, celsiusObj⟩

/-- The Rankine→Kelvin conversion function `r ↦ (r ⋅ 5/9) ⋅ Kelvin`. -/
def rankineToKelvinFn (r : ℚ) : Qty := ⟨r * 5 / 9, kelvinObj⟩

/-- The Kelvin→Rankine conversion function. -/
def kelvinToRankineFn (k : ℚ) : Qty := ⟨k * 9 / 5, rankineObj⟩

/-- A temperature conversion state: the Celsius↔Kelvin and Rankine↔Kelvin
function conversions, Kelvin the base metric of temperature. -/
def tempSt : ConvSt :=
  ⟨[(celsiusPerKelvin, .func celsiusObj kelvinObj celsiusToKelvinFn kelvinToCelsiusFn),
    (rankinePerKelvin, .func rankineObj kelvinObj rankineToKelvinFn kelvinToRankineFn)],
   [(tempDim.terms, kelvinObj)]⟩

/-- `Celsius * Kelvin` (a derived Metric of Dimension temperature²). -/
def celsiusKelvin : MetricObj :=
  ⟨"celsiuskelvin", ⟨"temperature²", [⟨⟨"temperature"⟩, 2⟩]⟩,
   [⟨pfx0, celsiusAtom, 1⟩, ⟨pfx0, kelvinAtom, 1⟩]⟩

/-- `Rankine ** 2`. -/
def rankineSq : MetricObj :=
  ⟨"rankine²", ⟨"temperature²", [⟨⟨"temperature"⟩, 2⟩]⟩,
   [⟨pfx0, rankineAtom, 2⟩]⟩

/-- `Inch ** 3`. -/
def inchCubed : MetricObj :=
  ⟨"inch³", ⟨"length³", [⟨⟨"length"⟩, 3⟩]⟩, [⟨pfx0, inchAtom, 3⟩]⟩

/-- `Meter ** 3`. -/
def meterCubed : MetricObj :=
  ⟨"meter³", ⟨"length³", [⟨⟨"length"⟩, 3⟩]⟩, [⟨pfx0, meterAtom, 3⟩]⟩

/-- The ratio Metric `foot² · inch⁻³ · meter` (such unbalanced-power
dimensionless ratios arise from e.g. `(One/Liter).to(One/(Foot²·Meter))`,
whose reduced sides are `(decimeter³)⁻¹` and `(foot²·meter)⁻¹`): its
term of maximal absolute power is `inch⁻³`, and it is unique. -/
def ratioNegMax : MetricObj :=
  ⟨"ratio", numberDim,
   [⟨pfx0, footAtom, 2⟩, ⟨pfx0, inchAtom, -3⟩, ⟨pfx0, meterAtom, 1⟩]⟩

/-- `ratioNegMax ** (1/3)`: the Metric `foot^(2/3) · inch⁻¹ · meter^(1/3)`
(checked below to be what `Metric.pow ratioNegMax (1/3)` produces). -/
def ratioNegMaxRoot : MetricObj :=
  ⟨"root", numberDim,
   [⟨pfx0, footAtom, 2/3⟩, ⟨pfx0, inchAtom, -1⟩, ⟨pfx0, meterAtom, 1/3⟩]⟩

/-- A conversion state registering a scalar conversion exactly at
`ratioNegMax ** (1/3)`. -/
def negMaxSt : ConvSt :=
  ⟨[(ratioNegMaxRoot, .scalar ⟨2, ratioNegMaxRoot⟩)], []⟩

/-- A registry holding dimensions `length` (id 0) and `time` (id 1) and a
derived dimension `speed = length/time` (id 2, registered under symbol
`"v"`), with a stale-free pattern state as left by those definitions. -/
def speedReg : Registry :=
  let r0 : Registry := ⟨[], [], none, [], [], none, [], [], [], 0⟩
  let (r1, _) := Dimension.newDefined r0 "length" (some "L")
  let (r2, _) := Dimension.newDefined r1 "time" (some "T")
  (Dimension.newFromDerivation r2 [⟨⟨"length"⟩, 1⟩, ⟨⟨"time"⟩, -1⟩]
    (some "speed") (some "v")).1

/-- The registry `speedReg` with the Metric pattern built (as after a
parse) — the stale-pattern scenario for prefix registration. -/
def builtPatternReg : Registry :=
  { speedReg with metricPattern := some (Metric.rebuildPattern speedReg) }

/-- The `kilo` prefix record. -/
def kiloRec : PrefixRec := ⟨"kilo", "k", 10, 3⟩

/-- A registry with the `kilo` prefix registered. -/
def kiloReg : Registry :=
  (PrefixRec.new builtPatternReg "kilo" "k" 10 3).1

/-- The registry after `Metric.Prefix.define` of `kibi` on a registry with
a built (cached) Metric pattern. -/
def kibiDefReg : Registry :=
  (PrefixRec.define builtPatternReg ⟨"kibi", "Ki", 2, 10⟩).getD builtPatternReg

/-- The canonical `length/time` term list. -/
def dLT : List DTerm := [⟨⟨"length"⟩, 1⟩, ⟨⟨"time"⟩, -1⟩]

/-- The ratio Metric `inch³ · meter⁻³` (from `Inch**3` to `Meter**3`):
its first maximal-`abs` term in canonical order is `inch³`, with positive
power. -/
def ratioPosMax : MetricObj :=
  ⟨"ratio2", numberDim, [⟨pfx0, inchAtom, 3⟩, ⟨pfx0, meterAtom, -3⟩]⟩

/-- A list is "ordered" for `lt` when no later element is `lt`-below an
earlier one (the postcondition of a stable sort with ties allowed). -/
def OrderedB (lt : α → α → Bool) (l : List α) : Prop :=
  l.Pairwise (fun a b => lt b a = false)

/-- The fractional part computed by the flattening loop of
`Metric.canonicalize`: `power % 1` (i.e. `power - ⌊power⌋`), negated when
the power is negative. -/
def pyFrac (r : ℚ) : ℚ :=
  if r < 0 then -(r - (ratFloor r : ℚ)) else r - (ratFloor r : ℚ)

/-- The whole part computed by the flattening loop:
`int(power - fractional)`, truncation toward zero. -/
def pyWhole (r : ℚ) : ℤ := ratTrunc (r - pyFrac r)

/-- The block of terms `flattenInner` emits for one inner term when the
outer prefix combines trivially with the inner one (`one + π = π`):
`|whole|` copies at the signed outer power plus, when the fractional part
is nonzero, one term at the fractional multiple of the outer power. -/
def emitT (q : ℚ) (t : MTerm) : List MTerm :=
  List.replicate (pyWhole t.power).natAbs
    ⟨t.pfx, t.metric, (if 0 < t.power then 1 else -1) * q⟩
  ++ (if pyFrac t.power = 0 then [] else [⟨t.pfx, t.metric, pyFrac t.power * q⟩])

/-- The round trip `(m ** 0.5) ** 2` of `Metric.__pow__`. -/
def powHalfSq (m0 : MetricObj) : Outcome MetricObj :=
  match Metric.pow m0 (1/2) with
  | .crash => .crash
  | .ok m1 => Metric.pow m1 2

/-! ## Toolkit lemmas: stable insertion sort -/

theorem insBy_perm (lt : α → α → Bool) (x : α) (l : List α) :
    List.Perm (insBy lt x l) (x :: l) := by
  induction l with
  | nil => simp [insBy]
  | cons y ys ih =>
      by_cases h : lt x y = true
      · simp [insBy, h]
      · simp only [insBy, h]
        rw [if_neg (by simp [h])]
        exact ((ih.cons y).trans (List.Perm.swap x y ys))

theorem sortAux_perm (lt : α → α → Bool) :
    ∀ (l acc : List α),
      List.Perm (l.foldl (fun acc x => insBy lt x acc) acc) (acc ++ l) := by
  intro l
  induction l with
  | nil => intro acc; simp
  | cons x xs ih =>
      intro acc
      have h1 : (x :: xs).foldl (fun acc x => insBy lt x acc) acc
          = xs.foldl (fun acc x => insBy lt x acc) (insBy lt x acc) := by
        simp [List.foldl]
      have h2 := ih (insBy lt x acc)
      have h3 : List.Perm (insBy lt x acc ++ xs) ((x :: acc) ++ xs) :=
        (insBy_perm lt x acc).append_right xs
      have h4 : List.Perm ((x :: acc) ++ xs) (acc ++ x :: xs) := by
        simpa using (List.perm_middle (a := x)).symm
      rw [h1]
      exact (h2.trans h3).trans h4

theorem sortBy'_perm (lt : α → α → Bool) (l : List α) :
    List.Perm (sortBy' lt l) l := by
  simpa [sortBy'] using sortAux_perm lt l []

theorem sortBy'_ne_nil (lt : α → α → Bool) (l : List α) (h : l ≠ []) :
    sortBy' lt l ≠ [] := by
  intro hc
  apply h
  have hlen := (sortBy'_perm lt l).length_eq
  rw [hc] at hlen
  exact List.eq_nil_of_length_eq_zero hlen.symm

theorem Metric.canonicalize_ok (ts : List OMTerm) (ws : List MTerm)
    (h : flattenM ts = .ok ws) :
    Metric.canonicalize ts =
      .ok ((if normalizeM (collectM ws) = [] then [⟨pfx0, tenAtom, 0⟩]
            else sortM (normalizeM (collectM ws))),
           Dimension.canonicalize (dimTermsOf ts)) := by
  rw [Metric.canonicalize, h]

theorem insBy_of_none_lt (lt : α → α → Bool) (x : α) (l : List α)
    (h : ∀ y ∈ l, lt x y = false) : insBy lt x l = l ++ [x] := by
  induction l with
  | nil => simp [insBy]
  | cons y ys ih =>
      have hy : lt x y = false := h y (by simp)
      simp only [insBy, hy]
      rw [if_neg (by simp)]
      simp [ih (fun z hz => h z (by simp [hz]))]

theorem sortAux_of_ordered (lt : α → α → Bool) :
    ∀ (l acc : List α), OrderedB lt (acc ++ l) →
      (l.foldl (fun acc x => insBy lt x acc) acc) = acc ++ l := by
  intro l
  induction l with
  | nil => intro acc _; simp
  | cons x xs ih =>
      intro acc h
      have hx : ∀ y ∈ acc, lt x y = false := by
        intro y hy
        have := (List.pairwise_append.mp h).2.2 y hy x (by simp)
        exact this
      have step : insBy lt x acc = acc ++ [x] := insBy_of_none_lt lt x acc hx
      have h' : OrderedB lt ((acc ++ [x]) ++ xs) := by
        simpa [List.append_assoc] using h
      calc (x :: xs).foldl (fun acc x => insBy lt x acc) acc
          = xs.foldl (fun acc x => insBy lt x acc) (acc ++ [x]) := by
            simp [List.foldl, step]
        _ = (acc ++ [x]) ++ xs := ih (acc ++ [x]) h'
        _ = acc ++ x :: xs := by simp

theorem sortBy'_of_ordered (lt : α → α → Bool) (l : List α)
    (h : OrderedB lt l) : sortBy' lt l = l := by
  simpa [sortBy'] using sortAux_of_ordered lt l [] (by simpa using h)

theorem insBy_ordered (lt : α → α → Bool)
    (hasym : ∀ a b, lt a b = true → lt b a = false)
    (htr : ∀ a b c, lt c b = false → lt a b = true → lt c a = false)
    (x : α) (l : List α) (h : OrderedB lt l) : OrderedB lt (insBy lt x l) := by
  induction l with
  | nil => simp [insBy, OrderedB]
  | cons y ys ih =>
      rcases (List.pairwise_cons.mp h) with ⟨hy, hys⟩
      by_cases hxy : lt x y = true
      · simp only [insBy, hxy, if_pos rfl]
        refine List.pairwise_cons.mpr ⟨?_, h⟩
        intro z hz
        rcases List.mem_cons.mp hz with rfl | hz'
        · exact hasym x z hxy
        · exact htr x y z (hy z hz') hxy
      · have hxy' : lt x y = false := by
          cases hv : lt x y
          · rfl
          · exact absurd hv hxy
        simp only [insBy, hxy']
        rw [if_neg (by simp)]
        refine List.pairwise_cons.mpr ⟨?_, ih hys⟩
        intro z hz
        have hz' := (insBy_perm lt x ys).mem_iff.mp hz
        rcases List.mem_cons.mp hz' with rfl | hz''
        · exact hxy'
        · exact hy z hz''

theorem sortAux_ordered (lt : α → α → Bool)
    (hasym : ∀ a b, lt a b = true → lt b a = false)
    (htr : ∀ a b c, lt c b = false → lt a b = true → lt c a = false) :
    ∀ (l acc : List α), OrderedB lt acc →
      OrderedB lt (l.foldl (fun acc x => insBy lt x acc) acc) := by
  intro l
  induction l with
  | nil => intro acc h; simpa using h
  | cons x xs ih =>
      intro acc h
      simpa [List.foldl] using
        ih (insBy lt x acc) (insBy_ordered lt hasym htr x acc h)

theorem sortBy'_ordered (lt : α → α → Bool)
    (hasym : ∀ a b, lt a b = true → lt b a = false)
    (htr : ∀ a b c, lt c b = false → lt a b = true → lt c a = false)
    (l : List α) : OrderedB lt (sortBy' lt l) := by
  simpa [sortBy'] using
    sortAux_ordered lt hasym htr l [] (by simp [OrderedB])

/-! ## Claim C8 — the canonical-set fallback and non-emptiness -/

/-- C8: for every input list of terms, when every term is discarded as
trivial or all accumulated powers cancel to 0 (i.e. the normalized
accumulation is empty), `canonicalize` returns the non-empty singleton
`{Number¹}` for Dimension canonicalization, and the power-0 term at the
identity Metric `Ten` for Metric canonicalization; hence every canonical
set returned by `canonicalize` is non-empty. -/
theorem c8_canonical_fallback_nonempty :
    (∀ ts : List ODTerm,
      (normalizeD (collectD ts) = [] →
        Dimension.canonicalize ts = [⟨numberAtom, 1⟩]) ∧
      Dimension.canonicalize ts ≠ []) ∧
    (∀ ts : List OMTerm, ∀ ws, flattenM ts = .ok ws →
      (normalizeM (collectM ws) = [] →
        Metric.canonicalize ts = .ok ([⟨pfx0, tenAtom, 0⟩],
          Dimension.canonicalize (dimTermsOf ts))) ∧
      ∀ o d, Metric.canonicalize ts = .ok (o, d) → o ≠ []) := by
  constructor
  · intro ts
    constructor
    · intro h
      simp [Dimension.canonicalize, h]
    · rw [Dimension.canonicalize]
      by_cases h : normalizeD (collectD ts) = []
      · simp [h]
      · rw [if_neg h]
        exact sortBy'_ne_nil _ _ h
  · intro ts ws hws
    constructor
    · intro h
      simp [Metric.canonicalize, hws, h]
    · intro o d ho
      rw [Metric.canonicalize_ok ts ws hws] at ho
      have ho1 : (if normalizeM (collectM ws) = [] then
          ([⟨pfx0, tenAtom, 0⟩] : List MTerm)
          else sortM (normalizeM (collectM ws))) = o := by
        injection ho with h'
        exact congrArg Prod.fst h'
      by_cases h : normalizeM (collectM ws) = []
      · rw [if_pos h] at ho1
        rw [← ho1]
        simp
      · rw [if_neg h] at ho1
        rw [← ho1]
        exact sortBy'_ne_nil _ _ h

/-- C8 witness: the fallback fires on the empty term list and on a
cancelling `meter · meter⁻¹` list. -/
theorem c8_canonical_fallback_nonempty_witness :
    normalizeD (collectD []) = [] ∧
    Dimension.canonicalize [] = [⟨numberAtom, 1⟩] ∧
    flattenM [⟨pfx0, meterObj, 1⟩, ⟨pfx0, meterObj, -1⟩] =
      .ok [⟨pfx0, meterAtom, 1⟩, ⟨pfx0, meterAtom, -1⟩] ∧
    Metric.canonicalize [⟨pfx0, meterObj, 1⟩, ⟨pfx0, meterObj, -1⟩] =
      .ok ([⟨pfx0, tenAtom, 0⟩], [⟨numberAtom, 1⟩]) := by
  refine ⟨by decide, (c8_canonical_fallback_nonempty.1 []).1 (by decide), by decide, ?_⟩
  have h := (c8_canonical_fallback_nonempty.2 [⟨pfx0, meterObj, 1⟩, ⟨pfx0, meterObj, -1⟩]
    [⟨pfx0, meterAtom, 1⟩, ⟨pfx0, meterAtom, -1⟩] (by decide)).1 (by decide)
  rw [h]
  decide

/-! ## Claim C9 — Prefix addition algebra -/

/-- C9: Prefix addition behaves as an algebra over base-matched powers:
`Kilo + Mega == Giga` (the powers sum to 9); `Kilo + Milli` yields the
null/no-prefix result (`None`), because the summed power is 0; and
`Kilo + Kibi` — different bases, both powers nonzero — is
`NotImplemented`, surfacing as a `TypeError` rather than a Prefix. -/
theorem c9_prefix_addition :
    Pfx.add kiloP megaP = .pfx gigaP ∧
    Pfx.add kiloP milliP = .nullPfx ∧
    Pfx.add kiloP kibiP = .notImpl := by
  decide

/-! ## Claim C3 — duplicate Prefix registration -/

/-- C3 counterexample: constructing a `Metric.Prefix` at the
already-registered `(10, 3)` — the claim says this raises a
duplicate-definition failure — in fact succeeds silently: `__new__`
resolves the existing flyweight, `__init__` sees it frozen and returns,
no `define` call happens, the registry is untouched, and the caller
receives the previously registered `kilo` prefix. -/
theorem c3_counterexample :
    PrefixRec.new kiloReg "FOO" "BAR" 10 3 = (kiloReg, kiloRec, true) := by
  decide

/-- C3 (amended): constructing a `Metric.Prefix` at an already-registered
`(base, power)` silently returns the existing flyweight without touching
the registries and without raising; only a *direct* call to
`Metric.Prefix.define` with an already-used `(base, power)` raises the
duplicate-definition `KeyError` (which is how the library's own
re-registration test invokes it); construction at a fresh `(base, power)`
registers the new prefix in both prefix tables. -/
theorem c3_amended :
    (∀ (r : Registry) (name sym : String) (b p : ℤ) (pr : PrefixRec),
      PrefixRec.find r b p = some pr →
      PrefixRec.new r name sym b p = (r, pr, true)) ∧
    (∀ (r : Registry) (p' : PrefixRec),
      (PrefixRec.find r p'.base p'.power).isSome →
      PrefixRec.define r p' = none) ∧
    (∀ (r : Registry) (name sym : String) (b p : ℤ),
      PrefixRec.find r b p = none →
      PrefixRec.new r name sym b p =
        ({ r with
            pfxByValue := r.pfxByValue ++ [((b, p), ⟨name, sym, b, p⟩)]
            pfxBySymbol := astore (· == ·) r.pfxBySymbol sym ⟨name, sym, b, p⟩ },
         ⟨name, sym, b, p⟩, false)) := by
  refine ⟨?_, ?_, ?_⟩
  · intro r name sym b p pr h
    rw [PrefixRec.new, h]
  · intro r p' h
    simp [PrefixRec.define, h]
  · intro r name sym b p h
    rw [PrefixRec.new, h]
    simp only [PrefixRec.define, h]
    rw [if_neg (by simp)]

/-- C3 witness: the amended behavior at the concrete `kilo` registry. -/
theorem c3_amended_witness :
    PrefixRec.new kiloReg "kilo2" "kk" 10 3 = (kiloReg, kiloRec, true) ∧
    PrefixRec.define kiloReg kiloRec = none := by
  constructor
  · exact c3_amended.1 kiloReg "kilo2" "kk" 10 3 kiloRec (by decide)
  · exact c3_amended.2.1 kiloReg kiloRec (by decide)

/-! ## Claim C4 — registration invalidates the cached parsing pattern -/

theorem astore_string_key_mem (m : List (String × α)) (k : String) (v : α) :
    k ∈ (astore (· == ·) m k v).map Prod.fst := by
  rw [astore]
  by_cases h : (m.find? fun e => e.1 == k).isSome
  · rw [if_pos h]
    rcases Option.isSome_iff_exists.mp h with ⟨e, he⟩
    have hk0 := List.find?_some he
    have hk' : e.1 = k := by
      simpa using hk0
    have hmem : e ∈ m := List.mem_of_find?_eq_some he
    have : e.1 ∈ (m.map (fun e => if e.1 == k then (e.1, v) else e)).map Prod.fst := by
      simp only [List.mem_map]
      exact ⟨(e.1, v), ⟨e, hmem, by simp [hk']⟩, rfl⟩
    rwa [hk'] at this
  · rw [if_neg h]
    simp

theorem mem_sortBy' (lt : α → α → Bool) (l : List α) (x : α) (h : x ∈ l) :
    x ∈ sortBy' lt l :=
  (sortBy'_perm lt l).mem_iff.mpr h

/-- C4 counterexample: `Metric.Prefix.define` (successful registration of
the `kibi` prefix on a registry whose Metric pattern is built and cached)
does *not* invalidate the cached tokenizing pattern: the pattern is
unchanged and still non-`None`, so the next parse reuses it, and the new
prefix symbol `"Ki"` is not among its prefix tokens — the parser cannot
recognize the newly registered symbol. -/
theorem c4_counterexample :
    PrefixRec.define builtPatternReg ⟨"kibi", "Ki", 2, 10⟩ = some kibiDefReg ∧
    kibiDefReg.metricPattern = builtPatternReg.metricPattern ∧
    builtPatternReg.metricPattern ≠ none ∧
    "Ki" ∉ (Metric.patternForParse kibiDefReg).1 := by
  decide

/-- C4 (amended): registering a Dimension or a Metric invalidates the
respective cached tokenizing pattern, so the next parse rebuilds it and
recognizes the newly registered symbol; registering a `Metric.Prefix`,
however, leaves both cached patterns untouched (the stale pattern, when
present, persists and the new prefix symbol stays unrecognized until some
Dimension/Metric registration or a first build). -/
theorem c4_amended :
    (∀ (r : Registry) (terms : List DTerm) (sym : String) (i : Nat),
      (Dimension.define r terms sym i).dimPattern = none ∧
      sym ∈ Dimension.patternForParse (Dimension.define r terms sym i)) ∧
    (∀ (r : Registry) (terms : List MTerm) (sym : String) (dt : List DTerm) (i : Nat),
      (Metric.define r terms sym dt i).metricPattern = none ∧
      sym ∈ (Metric.patternForParse (Metric.define r terms sym dt i)).2) ∧
    (∀ (r r' : Registry) (p : PrefixRec),
      PrefixRec.define r p = some r' →
      r'.metricPattern = r.metricPattern ∧ r'.dimPattern = r.dimPattern) := by
  refine ⟨?_, ?_, ?_⟩
  · intro r terms sym i
    refine ⟨rfl, ?_⟩
    show sym ∈ Dimension.patternForParse (Dimension.define r terms sym i)
    rw [Dimension.patternForParse, Dimension.define]
    exact mem_sortBy' _ _ sym (astore_string_key_mem r.dimsBySymbol sym i)
  · intro r terms sym dt i
    refine ⟨rfl, ?_⟩
    rw [Metric.patternForParse, Metric.define]
    exact mem_sortBy' _ _ sym (astore_string_key_mem r.metricsBySymbol sym i)
  · intro r r' p h
    rw [PrefixRec.define] at h
    by_cases hf : (PrefixRec.find r p.base p.power).isSome
    · rw [if_pos hf] at h
      cases h
    · rw [if_neg hf] at h
      have := Option.some.inj h
      rw [← this]
      exact ⟨rfl, rfl⟩

/-- C4 witness: the amended behavior at concrete registrations. -/
theorem c4_amended_witness :
    (Dimension.define speedReg [⟨⟨"mass"⟩, 1⟩] "M" 7).dimPattern = none ∧
    "M" ∈ Dimension.patternForParse (Dimension.define speedReg [⟨⟨"mass"⟩, 1⟩] "M" 7) ∧
    (Metric.define speedReg [⟨pfx0, meterAtom, 1⟩] "m" dLT 7).metricPattern = none ∧
    "m" ∈ (Metric.patternForParse (Metric.define speedReg [⟨pfx0, meterAtom, 1⟩] "m" dLT 7)).2 ∧
    kibiDefReg.metricPattern = builtPatternReg.metricPattern := by
  have h1 := c4_amended.1 speedReg [⟨⟨"mass"⟩, 1⟩] "M" 7
  have h2 := c4_amended.2.1 speedReg [⟨pfx0, meterAtom, 1⟩] "m" dLT 7
  have h3 := c4_amended.2.2 builtPatternReg kibiDefReg ⟨"kibi", "Ki", 2, 10⟩ (by decide)
  exact ⟨h1.1, h1.2, h2.1, h2.2, h3.1⟩

/-! ## Claim C1 — flyweight interning in the constructors -/

/-- C1 counterexample: constructing a named Dimension through the
`derivation=` path (`Dimension(name = "speed2", derivation = Length/Time)`)
on a registry whose canonical-term-set table already maps `length/time` to
instance 2 does *not* return the registered instance: it allocates the
fresh instance 3 (the claim required the constructor to check the table
first and return the existing, identity-equal instance whenever the
canonicalized term set has an entry). -/
theorem c1_counterexample :
    alookup dSetEq speedReg.dimsByTerms
      (Dimension.canonicalize (dLT.map DTerm.lift)) = some 2 ∧
    (Dimension.newFromDerivation speedReg dLT (some "speed2") none).2 = 3 ∧
    speedReg.nextId = 3 := by
  decide

/-- C1 (amended): only construction from an explicit `terms=` list checks
the canonical-term-set table — returning the registered instance
(identity-equal, with the registry untouched and any supplied name
ignored) on a hit, and otherwise allocating a fresh instance that is
registered (under its symbol and its terms, overwriting) exactly when a
name was supplied.  Construction from an explicit name+symbol ("defined")
and construction through `derivation=` never consult the table: they
always allocate a fresh instance (registering it, since those paths carry
a name).  The same holds for Metrics. -/
theorem c1_amended :
    (∀ (r : Registry) (ts : List ODTerm) (nm sym : Option String) (i : Nat),
      alookup dSetEq r.dimsByTerms (Dimension.canonicalize ts) = some i →
      Dimension.newFromTerms r ts nm sym = (r, i)) ∧
    (∀ (r : Registry) (ts : List ODTerm) (sym : Option String),
      alookup dSetEq r.dimsByTerms (Dimension.canonicalize ts) = none →
      Dimension.newFromTerms r ts none sym =
        ({ r with nextId := r.nextId + 1 }, r.nextId)) ∧
    (∀ (r : Registry) (ts : List ODTerm) (n : String) (sym : Option String),
      alookup dSetEq r.dimsByTerms (Dimension.canonicalize ts) = none →
      Dimension.newFromTerms r ts (some n) sym =
        (Dimension.define { r with nextId := r.nextId + 1 }
          (Dimension.canonicalize ts)
          (sym.getD (Dimension.identify (Dimension.canonicalize ts)).2) r.nextId,
         r.nextId)) ∧
    (∀ (r : Registry) (d : List DTerm) (nm sym : Option String),
      (Dimension.newFromDerivation r d nm sym).2 = r.nextId) ∧
    (∀ (r : Registry) (n : String) (sym : Option String),
      (Dimension.newDefined r n sym).2 = r.nextId) ∧
    (∀ (r : Registry) (ts : List OMTerm) (nm sym : Option String) (i : Nat)
        (o : List MTerm) (d : List DTerm),
      Metric.canonicalize ts = .ok (o, d) →
      alookup mSetEq r.metricsByTerms o = some i →
      Metric.newFromTerms r ts nm sym = .ok (r, i)) ∧
    (∀ (r : Registry) (m : MetricObj) (nm sym : Option String)
        (p : Registry × Nat),
      Metric.newFromDerivation r m nm sym = .ok p → p.2 = r.nextId) := by
  refine ⟨?_, ?_, ?_, ?_, ?_, ?_, ?_⟩
  · intro r ts nm sym i h
    rw [Dimension.newFromTerms, h]
  · intro r ts sym h
    rw [Dimension.newFromTerms, h]
  · intro r ts n sym h
    rw [Dimension.newFromTerms, h]
  · intro r d nm sym
    cases nm <;> rfl
  · intro r n sym
    rfl
  · intro r ts nm sym i o d hc h
    simp [Metric.newFromTerms, hc, h]
  · intro r m nm sym p h
    rw [Metric.newFromDerivation] at h
    cases hc : Metric.canonicalize (m.terms.map MTerm.lift) with
    | crash => rw [hc] at h; cases h
    | ok cd =>
        rw [hc] at h
        cases nm with
        | none =>
            have := Outcome.ok.inj h
            rw [← this]
        | some n =>
            have := Outcome.ok.inj h
            rw [← this]

/-- C1 witness: the amended behavior at a concrete registry — the
terms-mode flyweight hit returns instance 2 with the registry untouched,
and the derivation-mode construction allocates instance 3. -/
theorem c1_amended_witness :
    Dimension.newFromTerms speedReg (dLT.map DTerm.lift) none none = (speedReg, 2) ∧
    (Dimension.newFromDerivation speedReg dLT (some "speed2") none).2 = speedReg.nextId := by
  constructor
  · exact c1_amended.1 speedReg (dLT.map DTerm.lift) none none 2 (by decide)
  · exact c1_amended.2.2.2.1 speedReg dLT (some "speed2") none

/-! ## Claim C10 — Metric equality is scale equality -/

/-- C10 (confirmed): for Metrics `A` and `B` whose reductions are defined,
`A == B` holds iff `reduce(A)` and `reduce(B)` agree on the scalar
magnitude and on the prefix-free term set; consequently
`(Hecto·Meter)(Deca·Gram)` and `(Deca·Meter)(Hecto·Gram)` — different
prefixes, same scale 10³ over `meter·gram` — compare equal despite
distinct canonical term sets, while `Kilo·Meter` and `Meter` compare
unequal. -/
theorem c10_metric_eq_is_scale_eq :
    (∀ (a b : MetricObj) (ra rb : Qty),
      Metric.reduce a = some ra → Metric.reduce b = some rb →
      (Metric.eq a b = some true ↔
        (ra.mag = rb.mag ∧ mSetEq ra.metric.terms rb.metric.terms = true))) ∧
    Metric.eq hmDag dmHag = some true ∧
    hmDag.terms ≠ dmHag.terms ∧
    Metric.eq kiloMeter meterObj = some false := by
  refine ⟨?_, by decide, by decide, by decide⟩
  intro a b ra rb ha hb
  rw [Metric.eq, ha, hb]
  constructor
  · intro h
    have h' := Option.some.inj h
    have := (Bool.and_eq_true _ _).mp h'.symm.symm
    exact ⟨by simpa using this.1, this.2⟩
  · intro ⟨h1, h2⟩
    simp [h1, h2]

/-- C10 witness: the equivalence applied at `Kilo·Meter` vs `Meter`,
whose reductions are `(1000, meter)` and `(1, meter)`. -/
theorem c10_metric_eq_is_scale_eq_witness :
    Metric.reduce kiloMeter = some ⟨1000, meterObj⟩ ∧
    Metric.reduce meterObj = some ⟨1, meterObj⟩ ∧
    (Metric.eq kiloMeter meterObj = some true ↔
      ((1000 : ℚ) = 1 ∧ mSetEq meterObj.terms meterObj.terms = true)) := by
  refine ⟨by decide, by decide, ?_⟩
  exact c10_metric_eq_is_scale_eq.1 kiloMeter meterObj ⟨1000, meterObj⟩ ⟨1, meterObj⟩
    (by decide) (by decide)

/-! ## Claim C7 — integer-root factoring's starting exponent -/

theorem downTo2_eq_nil (hp : ℤ) (h : hp < 2) : downTo2 hp = [] := by
  rw [downTo2]
  have : (hp - 1).toNat = 0 := by omega
  rw [this]
  rfl

/-- C7 counterexample: on the ratio `foot² · inch⁻³ · meter` with a
conversion registered exactly at its cube root, the strategy as the claim
(and spec) words it — start from the highest *absolute* power, 3 — finds
the root conversion, but the code takes the *signed* power of the
maximal-`abs` term, `−3`, so `range(-3, 1, -1)` is empty and the stage
finds nothing. -/
theorem c7_counterexample :
    argmaxAbs ratioNegMax.terms = some ⟨pfx0, inchAtom, -3⟩ ∧
    rootStageAsSpecified negMaxSt ratioNegMax = .ok (some (.rooted 0 3 false)) ∧
    rootStage negMaxSt ratioNegMax = .ok none := by
  decide

/-- C7 (amended): the starting exponent of the integer-root factoring
strategy is the *signed* power of the first maximal-absolute-power term of
the ratio unit (for a unique maximum, of that term); when it is an
integer `p₀ ≥ 2` the resolver scans `p = p₀, …, 2`, testing
`ratioUnit^(1/p)` and its inverse and returning
`q ↦ conversion(q^(1/p))^p` on the first hit; when `p₀ < 2` — in
particular whenever the maximal-absolute-power term has negative power —
no root factoring is attempted at all; a non-integral starting power is a
`TypeError`. -/
theorem c7_amended :
    ∀ (st : ConvSt) (mtf : MetricObj) (tmax : MTerm),
      argmaxAbs mtf.terms = some tmax →
      (tmax.power.den = 1 →
        rootStage st mtf = rootScan st mtf tmax.power.num ∧
        (tmax.power.num < 2 → rootStage st mtf = .ok none)) ∧
      (tmax.power.den ≠ 1 → rootStage st mtf = .crash) := by
  intro st mtf tmax h
  constructor
  · intro hden
    have h1 : rootStage st mtf = rootScan st mtf tmax.power.num := by
      simp only [rootStage, h]
      rw [if_neg (by simp [hden])]
    refine ⟨h1, ?_⟩
    intro hlt
    rw [h1, rootScan, downTo2_eq_nil _ hlt]
    rfl
  · intro hden
    simp only [rootStage, h]
    rw [if_pos (by simp [hden])]

/-- C7 witness: the amended behavior at the `inch³·meter⁻³` ratio (first
maximal-`abs` term `inch³`, positive): the stage equals the descending
scan from 3, which hits the inverse of the registered `meter/inch`
conversion at `p = 3`. -/
theorem c7_amended_witness :
    argmaxAbs ratioPosMax.terms = some ⟨pfx0, inchAtom, 3⟩ ∧
    rootStage usSt ratioPosMax = rootScan usSt ratioPosMax 3 ∧
    rootStage usSt ratioPosMax = .ok (some (.rooted 0 3 true)) := by
  refine ⟨by decide, ?_, by decide⟩
  exact ((c7_amended usSt ratioPosMax ⟨pfx0, inchAtom, 3⟩ (by decide)).1 (by decide)).1

/-! ## Claim C2 — idempotence of canonicalization.
Toolkit: order properties of the sort comparator, key-uniqueness of the
accumulation dicts, and the behaviour of each canonicalization stage on an
already-canonical list. -/

theorem charsLt_irrefl : ∀ l : List Char, charsLt l l = false := by
  intro l
  induction l with
  | nil => rfl
  | cons x xs ih => simpa [charsLt] using ih

theorem charsLt_trans :
    ∀ (a b c : List Char), charsLt a b = true → charsLt b c = true →
      charsLt a c = true := by
  intro a
  induction a with
  | nil =>
      intro b c h1 h2
      cases b with
      | nil => simp [charsLt] at h1
      | cons y ys =>
          cases c with
          | nil => simp [charsLt] at h2
          | cons z zs => simp [charsLt]
  | cons x xs ih =>
      intro b c h1 h2
      cases b with
      | nil => simp [charsLt] at h1
      | cons y ys =>
          cases c with
          | nil => simp [charsLt] at h2
          | cons z zs =>
              simp only [charsLt] at h1 h2 ⊢
              by_cases hxy : x.toNat = y.toNat
              · rw [if_pos hxy] at h1
                by_cases hyz : y.toNat = z.toNat
                · rw [if_pos hyz] at h2
                  rw [if_pos (hxy.trans hyz)]
                  exact ih ys zs h1 h2
                · rw [if_neg hyz] at h2
                  have h2n : y.toNat < z.toNat := by simpa using h2
                  rw [if_neg (by omega)]
                  simpa using (by omega : x.toNat < z.toNat)
              · rw [if_neg hxy] at h1
                have h1n : x.toNat < y.toNat := by simpa using h1
                by_cases hyz : y.toNat = z.toNat
                · rw [if_pos hyz] at h2
                  rw [if_neg (by omega)]
                  simpa using (by omega : x.toNat < z.toNat)
                · rw [if_neg hyz] at h2
                  have h2n : y.toNat < z.toNat := by simpa using h2
                  rw [if_neg (by omega)]
                  simpa using (by omega : x.toNat < z.toNat)

theorem strLt_asymm (a b : String) (h : strLt a b = true) : strLt b a = false := by
  cases hv : strLt b a
  · rfl
  · have h3 := charsLt_trans a.data b.data a.data h hv
    rw [charsLt_irrefl] at h3
    exact absurd h3 (by simp)

theorem strLt_step (a b c : String) (h1 : strLt c b = false) (h2 : strLt a b = true) :
    strLt c a = false := by
  cases hv : strLt c a
  · rfl
  · have h3 := charsLt_trans c.data a.data b.data hv h2
    have h1c : charsLt c.data b.data = false := h1
    rw [h1c] at h3
    exact absurd h3 (by simp)

theorem DAtom_eq_iff (a b : DAtom) : a = b ↔ a.name = b.name := by
  cases a
  cases b
  simp

theorem bumpD_of_not_mem (acc : List (DAtom × ℚ)) (a : DAtom) (q : ℚ)
    (h : ∀ e ∈ acc, e.1 ≠ a) : bumpD acc a q = acc ++ [(a, q)] := by
  induction acc with
  | nil => rfl
  | cons e rest ih =>
      obtain ⟨b, p⟩ := e
      simp only [bumpD]
      rw [if_neg (h (b, p) (by simp))]
      rw [ih (fun x hx => h x (List.mem_cons_of_mem _ hx))]
      simp

theorem bumpD_key_mem (acc : List (DAtom × ℚ)) (a : DAtom) (q : ℚ) (x : DAtom) :
    x ∈ (bumpD acc a q).map Prod.fst ↔ x ∈ acc.map Prod.fst ∨ x = a := by
  induction acc with
  | nil => simp [bumpD]
  | cons e rest ih =>
      obtain ⟨b, p⟩ := e
      by_cases hb : b = a
      · subst hb
        have he : bumpD ((b, p) :: rest) b q = (b, p + q) :: rest := by
          simp [bumpD]
        rw [he]
        simp only [List.map_cons, List.mem_cons]
        tauto
      · simp only [bumpD, if_neg hb, List.map_cons, List.mem_cons]
        rw [ih]
        tauto

theorem bumpD_nodup (acc : List (DAtom × ℚ)) (a : DAtom) (q : ℚ)
    (h : (acc.map Prod.fst).Nodup) : ((bumpD acc a q).map Prod.fst).Nodup := by
  induction acc with
  | nil => simp [bumpD]
  | cons e rest ih =>
      obtain ⟨b, p⟩ := e
      simp only [List.map_cons, List.nodup_cons] at h
      by_cases hb : b = a
      · subst hb
        have he : bumpD ((b, p) :: rest) b q = (b, p + q) :: rest := by
          simp [bumpD]
        rw [he]
        simp only [List.map_cons, List.nodup_cons]
        exact h
      · simp only [bumpD, if_neg hb, List.map_cons, List.nodup_cons]
        refine ⟨?_, ih h.2⟩
        rw [bumpD_key_mem]
        intro hc
        rcases hc with hm | rfl
        · exact h.1 hm
        · exact hb rfl

theorem foldl_bumpD_nodup (g : DTerm → ℚ) :
    ∀ (l : List DTerm) (acc : List (DAtom × ℚ)),
      (acc.map Prod.fst).Nodup →
      ((l.foldl (fun ac it => bumpD ac it.dim (g it)) acc).map Prod.fst).Nodup := by
  intro l
  induction l with
  | nil => intro acc h; simpa using h
  | cons t ts ih =>
      intro acc h
      simpa [List.foldl_cons] using ih (bumpD acc t.dim (g t)) (bumpD_nodup _ _ _ h)

theorem collectD_nodup (ts : List ODTerm) : ((collectD ts).map Prod.fst).Nodup := by
  suffices h : ∀ (l : List ODTerm) (acc : List (DAtom × ℚ)),
      (acc.map Prod.fst).Nodup →
      ((l.foldl (fun acc t =>
          if t.scalar then acc
          else t.dim.terms.foldl (fun acc it => bumpD acc it.dim (t.power * it.power)) acc)
        acc).map Prod.fst).Nodup by
    simpa [collectD] using h ts [] (by simp)
  intro l
  induction l with
  | nil => intro acc h; simpa using h
  | cons t ts2 ih =>
      intro acc h
      simp only [List.foldl_cons]
      by_cases hs : t.scalar = true
      · rw [if_pos hs]
        exact ih acc h
      · rw [if_neg hs]
        exact ih _ (foldl_bumpD_nodup (fun it => t.power * it.power) t.dim.terms acc h)

theorem normalizeD_key_mem (ps : List (DAtom × ℚ)) (x : DAtom)
    (h : x ∈ (normalizeD ps).map DTerm.dim) : x ∈ ps.map Prod.fst := by
  induction ps with
  | nil => simp [normalizeD] at h
  | cons e rest ih =>
      obtain ⟨b, p⟩ := e
      by_cases hp : p = 0
      · have he : normalizeD ((b, p) :: rest) = normalizeD rest := by
          simp [normalizeD, hp]
        rw [he] at h
        exact List.mem_cons_of_mem _ (ih h)
      · have he : normalizeD ((b, p) :: rest) = ⟨b, p⟩ :: normalizeD rest := by
          simp [normalizeD, hp]
        rw [he] at h
        simp only [List.map_cons, List.mem_cons] at h ⊢
        rcases h with h | h
        · left; exact h
        · right; exact ih h

theorem normalizeD_nodup (ps : List (DAtom × ℚ)) (h : (ps.map Prod.fst).Nodup) :
    ((normalizeD ps).map DTerm.dim).Nodup := by
  induction ps with
  | nil => simp [normalizeD]
  | cons e rest ih =>
      obtain ⟨b, p⟩ := e
      simp only [List.map_cons, List.nodup_cons] at h
      by_cases hp : p = 0
      · have he : normalizeD ((b, p) :: rest) = normalizeD rest := by
          simp [normalizeD, hp]
        rw [he]
        exact ih h.2
      · have he : normalizeD ((b, p) :: rest) = ⟨b, p⟩ :: normalizeD rest := by
          simp [normalizeD, hp]
        rw [he]
        simp only [List.map_cons, List.nodup_cons]
        exact ⟨fun hm => h.1 (normalizeD_key_mem rest b hm), ih h.2⟩

theorem normalizeD_nonzero (ps : List (DAtom × ℚ)) :
    ∀ t ∈ normalizeD ps, t.power ≠ 0 := by
  intro t ht
  simp only [normalizeD, List.mem_filterMap] at ht
  obtain ⟨e, _, he⟩ := ht
  by_cases hp : e.2 = 0
  · rw [if_pos hp] at he
    exact absurd he (by simp)
  · rw [if_neg hp] at he
    have h2 := Option.some.inj he
    rw [← h2]
    exact hp

theorem collectD_lift (c : List DTerm)
    (hnz : ∀ t ∈ c, t.power ≠ 0)
    (hnn : ∀ t ∈ c, t.dim ≠ numberAtom)
    (hnd : (c.map DTerm.dim).Nodup) :
    collectD (c.map DTerm.lift) = c.map (fun t => (t.dim, t.power)) := by
  suffices h : ∀ (l : List DTerm) (acc : List (DAtom × ℚ)),
      (∀ t ∈ l, t.power ≠ 0) → (∀ t ∈ l, t.dim ≠ numberAtom) →
      ((l.map DTerm.dim).Nodup) →
      (∀ t ∈ l, ∀ e ∈ acc, e.1 ≠ t.dim) →
      (l.map DTerm.lift).foldl
        (fun acc t =>
          if t.scalar then acc
          else t.dim.terms.foldl (fun acc it => bumpD acc it.dim (t.power * it.power)) acc)
        acc
      = acc ++ l.map (fun t => (t.dim, t.power)) by
    simpa [collectD] using h c [] hnz hnn hnd (by simp)
  intro l
  induction l with
  | nil => intro acc _ _ _ _; simp
  | cons t ts ih =>
      intro acc hnz2 hnn2 hnd2 hdisj
      have hname : t.dim.name ≠ "number" := by
        intro hc
        exact hnn2 t (by simp) ((DAtom_eq_iff _ _).mpr (by simpa [numberAtom] using hc))
      have hsc : (DTerm.lift t).scalar = false := by
        simp only [ODTerm.scalar, DTerm.lift, DAtom.toDim, Bool.or_eq_false_iff,
          decide_eq_false_iff_not]
        exact ⟨hnz2 t (by simp), hname⟩
      have hnd3 : (∀ x ∈ ts, ¬x.dim = t.dim) ∧ (List.map DTerm.dim ts).Nodup := by
        simpa using hnd2
      simp only [List.map_cons, List.foldl_cons]
      rw [if_neg (by simp [hsc])]
      have hstep : (DTerm.lift t).dim.terms.foldl
          (fun acc it => bumpD acc it.dim ((DTerm.lift t).power * it.power)) acc
          = acc ++ [(t.dim, t.power)] := by
        simp only [DTerm.lift, DAtom.toDim, List.foldl_cons, List.foldl_nil, mul_one]
        exact bumpD_of_not_mem acc t.dim t.power (hdisj t (by simp))
      rw [hstep]
      rw [ih (acc ++ [(t.dim, t.power)])
            (fun x hx => hnz2 x (by simp [hx]))
            (fun x hx => hnn2 x (by simp [hx]))
            hnd3.2
            ?_]
      · simp
      · intro x hx e he
        rcases List.mem_append.mp he with ha | hb
        · exact hdisj x (by simp [hx]) e ha
        · have heq : e = (t.dim, t.power) := by simpa using hb
          rw [heq]
          intro hc
          exact hnd3.1 x hx hc.symm

theorem normalizeD_map_pair (c : List DTerm) (h : ∀ t ∈ c, t.power ≠ 0) :
    normalizeD (c.map (fun t => (t.dim, t.power))) = c := by
  induction c with
  | nil => rfl
  | cons t ts ih =>
      have he : normalizeD ((t :: ts).map (fun t => (t.dim, t.power)))
          = ⟨t.dim, t.power⟩ :: normalizeD (ts.map (fun t => (t.dim, t.power))) := by
        simp [normalizeD, h t (by simp)]
      rw [he, ih (fun x hx => h x (by simp [hx]))]

theorem dim_canonicalize_props (ts : List ODTerm)
    (hne : normalizeD (collectD ts) ≠ []) :
    ((Dimension.canonicalize ts).map DTerm.dim).Nodup ∧
    (∀ t ∈ Dimension.canonicalize ts, t.power ≠ 0) ∧
    OrderedB (fun a b => strLt a.dim.name b.dim.name) (Dimension.canonicalize ts) ∧
    Dimension.canonicalize ts ≠ [] := by
  have hc : Dimension.canonicalize ts = sortD (normalizeD (collectD ts)) := by
    simp only [Dimension.canonicalize]
    rw [if_neg hne]
  have hperm : List.Perm (sortD (normalizeD (collectD ts))) (normalizeD (collectD ts)) :=
    sortBy'_perm _ _
  refine ⟨?_, ?_, ?_, ?_⟩
  · rw [hc]
    exact ((hperm.map DTerm.dim).nodup_iff).mpr (normalizeD_nodup _ (collectD_nodup ts))
  · intro t ht
    rw [hc] at ht
    exact normalizeD_nonzero _ t (hperm.mem_iff.mp ht)
  · rw [hc]
    exact sortBy'_ordered (fun a b => strLt a.dim.name b.dim.name)
      (fun (a b : DTerm) (h : strLt a.dim.name b.dim.name = true) =>
        strLt_asymm a.dim.name b.dim.name h)
      (fun (a b c : DTerm) (h1 : strLt c.dim.name b.dim.name = false)
          (h2 : strLt a.dim.name b.dim.name = true) =>
        strLt_step a.dim.name b.dim.name c.dim.name h1 h2) _
  · rw [hc]
    exact sortBy'_ne_nil _ _ hne

theorem dim_idem_of_props (c : List DTerm)
    (hnd : (c.map DTerm.dim).Nodup)
    (hnz : ∀ t ∈ c, t.power ≠ 0)
    (hord : OrderedB (fun a b => strLt a.dim.name b.dim.name) c)
    (hne : c ≠ [])
    (hnn : ∀ t ∈ c, t.dim ≠ numberAtom) :
    Dimension.canonicalize (c.map DTerm.lift) = c := by
  simp only [Dimension.canonicalize]
  rw [collectD_lift c hnz hnn hnd, normalizeD_map_pair c hnz]
  rw [if_neg hne]
  exact sortBy'_of_ordered _ c hord

theorem bumpM_of_not_mem (acc : List ((Pfx × MAtom) × ℚ)) (k : Pfx × MAtom) (q : ℚ)
    (h : ∀ e ∈ acc, e.1 ≠ k) : bumpM acc k q = acc ++ [(k, q)] := by
  induction acc with
  | nil => rfl
  | cons e rest ih =>
      obtain ⟨b, p⟩ := e
      simp only [bumpM]
      rw [if_neg (h (b, p) (by simp))]
      rw [ih (fun x hx => h x (List.mem_cons_of_mem _ hx))]
      simp

theorem bumpM_key_mem (acc : List ((Pfx × MAtom) × ℚ)) (k : Pfx × MAtom) (q : ℚ)
    (x : Pfx × MAtom) :
    x ∈ (bumpM acc k q).map Prod.fst ↔ x ∈ acc.map Prod.fst ∨ x = k := by
  induction acc with
  | nil => simp [bumpM]
  | cons e rest ih =>
      obtain ⟨b, p⟩ := e
      by_cases hb : b = k
      · subst hb
        have he : bumpM ((b, p) :: rest) b q = (b, p + q) :: rest := by
          simp [bumpM]
        rw [he]
        simp only [List.map_cons, List.mem_cons]
        tauto
      · simp only [bumpM, if_neg hb, List.map_cons, List.mem_cons]
        rw [ih]
        tauto

theorem bumpM_nodup (acc : List ((Pfx × MAtom) × ℚ)) (k : Pfx × MAtom) (q : ℚ)
    (h : (acc.map Prod.fst).Nodup) : ((bumpM acc k q).map Prod.fst).Nodup := by
  induction acc with
  | nil => simp [bumpM]
  | cons e rest ih =>
      obtain ⟨b, p⟩ := e
      simp only [List.map_cons, List.nodup_cons] at h
      by_cases hb : b = k
      · subst hb
        have he : bumpM ((b, p) :: rest) b q = (b, p + q) :: rest := by
          simp [bumpM]
        rw [he]
        simp only [List.map_cons, List.nodup_cons]
        exact h
      · simp only [bumpM, if_neg hb, List.map_cons, List.nodup_cons]
        refine ⟨?_, ih h.2⟩
        rw [bumpM_key_mem]
        intro hc
        rcases hc with hm | rfl
        · exact h.1 hm
        · exact hb rfl

theorem collectM_nodup (ws : List MTerm) : ((collectM ws).map Prod.fst).Nodup := by
  suffices h : ∀ (l : List MTerm) (acc : List ((Pfx × MAtom) × ℚ)),
      (acc.map Prod.fst).Nodup →
      ((l.foldl (fun acc w => bumpM acc (w.pfx, w.metric) w.power) acc).map
        Prod.fst).Nodup by
    simpa [collectM] using h ws [] (by simp)
  intro l
  induction l with
  | nil => intro acc h; simpa using h
  | cons t ts ih =>
      intro acc h
      simpa [List.foldl_cons] using
        ih (bumpM acc (t.pfx, t.metric) t.power) (bumpM_nodup _ _ _ h)

theorem normalizeM_key_mem (ps : List ((Pfx × MAtom) × ℚ)) (x : Pfx × MAtom)
    (h : x ∈ (normalizeM ps).map (fun t => (t.pfx, t.metric))) :
    x ∈ ps.map Prod.fst := by
  induction ps with
  | nil => simp [normalizeM] at h
  | cons e rest ih =>
      obtain ⟨k, p⟩ := e
      by_cases hp : p = 0
      · have he : normalizeM ((k, p) :: rest) = normalizeM rest := by
          simp [normalizeM, hp]
        rw [he] at h
        exact List.mem_cons_of_mem _ (ih h)
      · have he : normalizeM ((k, p) :: rest) = ⟨k.1, k.2, p⟩ :: normalizeM rest := by
          simp [normalizeM, hp]
        rw [he] at h
        simp only [List.map_cons, List.mem_cons] at h ⊢
        rcases h with h | h
        · left; exact h
        · right; exact ih h

theorem normalizeM_nodup (ps : List ((Pfx × MAtom) × ℚ))
    (h : (ps.map Prod.fst).Nodup) :
    ((normalizeM ps).map (fun t => (t.pfx, t.metric))).Nodup := by
  induction ps with
  | nil => simp [normalizeM]
  | cons e rest ih =>
      obtain ⟨k, p⟩ := e
      simp only [List.map_cons, List.nodup_cons] at h
      by_cases hp : p = 0
      · have he : normalizeM ((k, p) :: rest) = normalizeM rest := by
          simp [normalizeM, hp]
        rw [he]
        exact ih h.2
      · have he : normalizeM ((k, p) :: rest) = ⟨k.1, k.2, p⟩ :: normalizeM rest := by
          simp [normalizeM, hp]
        rw [he]
        simp only [List.map_cons, List.nodup_cons]
        exact ⟨fun hm => h.1 (normalizeM_key_mem rest k hm), ih h.2⟩

theorem normalizeM_nonzero (ps : List ((Pfx × MAtom) × ℚ)) :
    ∀ t ∈ normalizeM ps, t.power ≠ 0 := by
  intro t ht
  simp only [normalizeM, List.mem_filterMap] at ht
  obtain ⟨e, _, he⟩ := ht
  by_cases hp : e.2 = 0
  · rw [if_pos hp] at he
    exact absurd he (by simp)
  · rw [if_neg hp] at he
    have h2 := Option.some.inj he
    rw [← h2]
    exact hp

theorem collectM_of_nodup (c : List MTerm)
    (hnd : (c.map (fun t => (t.pfx, t.metric))).Nodup) :
    collectM c = c.map (fun t => ((t.pfx, t.metric), t.power)) := by
  suffices h : ∀ (l : List MTerm) (acc : List ((Pfx × MAtom) × ℚ)),
      ((l.map (fun t => (t.pfx, t.metric))).Nodup) →
      (∀ t ∈ l, ∀ e ∈ acc, e.1 ≠ (t.pfx, t.metric)) →
      l.foldl (fun acc w => bumpM acc (w.pfx, w.metric) w.power) acc
        = acc ++ l.map (fun t => ((t.pfx, t.metric), t.power)) by
    simpa [collectM] using h c [] hnd (by simp)
  intro l
  induction l with
  | nil => intro acc _ _; simp
  | cons t ts ih =>
      intro acc hnd2 hdisj
      have hnd3 := List.nodup_cons.mp hnd2
      simp only [List.map_cons, List.foldl_cons]
      rw [bumpM_of_not_mem acc (t.pfx, t.metric) t.power (hdisj t (by simp))]
      rw [ih (acc ++ [((t.pfx, t.metric), t.power)]) hnd3.2 ?_]
      · simp
      · intro x hx e he
        rcases List.mem_append.mp he with ha | hb
        · exact hdisj x (by simp [hx]) e ha
        · have heq : e = ((t.pfx, t.metric), t.power) := by simpa using hb
          rw [heq]
          intro hc
          apply hnd3.1
          show (t.pfx, t.metric) ∈ List.map (fun t => (t.pfx, t.metric)) ts
          have hc2 : (t.pfx, t.metric) = (x.pfx, x.metric) := hc
          rw [hc2]
          exact List.mem_map_of_mem _ hx

theorem normalizeM_map_pair (c : List MTerm) (h : ∀ t ∈ c, t.power ≠ 0) :
    normalizeM (c.map (fun t => ((t.pfx, t.metric), t.power))) = c := by
  induction c with
  | nil => rfl
  | cons t ts ih =>
      have he : normalizeM ((t :: ts).map (fun t => ((t.pfx, t.metric), t.power)))
          = ⟨t.pfx, t.metric, t.power⟩ ::
            normalizeM (ts.map (fun t => ((t.pfx, t.metric), t.power))) := by
        simp [normalizeM, h t (by simp)]
      rw [he, ih (fun x hx => h x (by simp [hx]))]

theorem Pfx_add_pfx0 (p : Pfx) :
    Pfx.add p pfx0 = (if p.power = 0 then PfxSum.nullPfx else PfxSum.pfx p) := by
  simp only [Pfx.add, pfx0]
  rw [if_neg (by simp)]
  by_cases h0 : p.power = 0
  · rw [if_pos (by simpa using h0), if_pos h0]
  · rw [if_neg (by simpa using h0), if_neg h0]
    simp

theorem flattenInner_unit (p : Pfx) (q : ℚ) (m : MAtom)
    (hp : p.power = 0 → p = pfx0) :
    flattenInner p q false ⟨pfx0, m, 1⟩ = .ok ([⟨p, m, q⟩], true) := by
  have hres : (Pfx.add p pfx0).resolve = .ok p := by
    rw [Pfx_add_pfx0]
    by_cases h0 : p.power = 0
    · rw [if_pos h0]
      rw [hp h0]
      rfl
    · rw [if_neg h0]
      rfl
  have hfl : ratFloor (1 : ℚ) = 1 := by decide
  have htr : ratTrunc (1 : ℚ) = 1 := by decide
  norm_num [flattenInner, hfl, htr, hres]

theorem flattenOuter_lift (t : MTerm) (hp : t.pfx.power = 0 → t.pfx = pfx0) :
    flattenOuter (MTerm.lift t) = .ok [t] := by
  have hfo := flattenInner_unit t.pfx t.power t.metric hp
  simp only [flattenOuter, MTerm.lift, MAtom.toMetric, List.foldl_cons,
    List.foldl_nil, hfo]
  rfl

theorem flattenM_lift (c : List MTerm)
    (hp : ∀ t ∈ c, t.pfx.power = 0 → t.pfx = pfx0) :
    flattenM (c.map MTerm.lift) = .ok c := by
  suffices h : ∀ (l : List MTerm) (acc : List MTerm),
      (∀ t ∈ l, t.pfx.power = 0 → t.pfx = pfx0) →
      (l.map MTerm.lift).foldl
        (fun acc t =>
          match acc with
          | .crash => .crash
          | .ok out =>
              match flattenOuter t with
              | .crash => .crash
              | .ok ws => .ok (out ++ ws))
        (Outcome.ok acc) = .ok (acc ++ l) by
    simpa [flattenM] using h c [] hp
  intro l
  induction l with
  | nil => intro acc _; simp
  | cons t ts ih =>
      intro acc h
      have hfo := flattenOuter_lift t (h t (by simp))
      simp only [List.map_cons, List.foldl_cons, hfo]
      rw [ih (acc ++ [t]) (fun x hx => h x (by simp [hx]))]
      simp

theorem metric_canon_props (ts : List OMTerm) (canon : List MTerm) (d : List DTerm)
    (hm : Metric.canonicalize ts = .ok (canon, d)) :
    canon = [⟨pfx0, tenAtom, 0⟩] ∨
    ((canon.map (fun t => (t.pfx, t.metric))).Nodup ∧
     (∀ t ∈ canon, t.power ≠ 0) ∧
     OrderedB (fun a b => strLt a.metric.name b.metric.name) canon ∧
     canon ≠ []) := by
  cases hf : flattenM ts with
  | crash =>
      simp only [Metric.canonicalize, hf] at hm
      exact Outcome.noConfusion hm
  | ok ws =>
      rw [Metric.canonicalize_ok ts ws hf] at hm
      have hpair := Outcome.ok.inj hm
      have hcanon : (if normalizeM (collectM ws) = [] then [⟨pfx0, tenAtom, 0⟩]
          else sortM (normalizeM (collectM ws))) = canon :=
        congrArg Prod.fst hpair
      by_cases hn : normalizeM (collectM ws) = []
      · left
        rw [if_pos hn] at hcanon
        exact hcanon.symm
      · right
        rw [if_neg hn] at hcanon
        subst hcanon
        have hperm : List.Perm (sortM (normalizeM (collectM ws)))
            (normalizeM (collectM ws)) := sortBy'_perm _ _
        refine ⟨?_, ?_, ?_, ?_⟩
        · exact ((hperm.map (fun t => (t.pfx, t.metric))).nodup_iff).mpr
            (normalizeM_nodup _ (collectM_nodup ws))
        · intro t ht
          exact normalizeM_nonzero _ t (hperm.mem_iff.mp ht)
        · exact sortBy'_ordered (fun a b => strLt a.metric.name b.metric.name)
            (fun (a b : MTerm) (h : strLt a.metric.name b.metric.name = true) =>
              strLt_asymm a.metric.name b.metric.name h)
            (fun (a b c : MTerm) (h1 : strLt c.metric.name b.metric.name = false)
                (h2 : strLt a.metric.name b.metric.name = true) =>
              strLt_step a.metric.name b.metric.name c.metric.name h1 h2) _
        · exact sortBy'_ne_nil _ _ hn

theorem metric_idem_of_props (c : List MTerm)
    (hnd : (c.map (fun t => (t.pfx, t.metric))).Nodup)
    (hnz : ∀ t ∈ c, t.power ≠ 0)
    (hord : OrderedB (fun a b => strLt a.metric.name b.metric.name) c)
    (hne : c ≠ [])
    (hp : ∀ t ∈ c, t.pfx.power = 0 → t.pfx = pfx0) :
    Metric.canonicalize (c.map MTerm.lift)
      = .ok (c, Dimension.canonicalize (dimTermsOf (c.map MTerm.lift))) := by
  rw [Metric.canonicalize_ok (c.map MTerm.lift) c (flattenM_lift c hp)]
  rw [collectM_of_nodup c hnd, normalizeM_map_pair c hnz]
  rw [if_neg hne]
  have hs : sortM c = c := sortBy'_of_ordered _ c hord
  rw [hs]

/-- C2 counterexample: canonicalization is not idempotent for every list of
terms.  A Dimension built as `Dimension(name = "foo", derivation = ...)` whose
term set is `{Number¹}` is not the `Number` dimension by name, so
`canonicalize([Term(foo, 5)])` collects `{Number⁵}` — but feeding `{Number⁵}`
back into `canonicalize` skips it as `scalar` (its dimension's name is
`"number"`), leaving nothing, and the fallback returns `{Number¹}`, not
`{Number⁵}`. -/
theorem c2_counterexample :
    Dimension.canonicalize
        ((Dimension.canonicalize [⟨fooNumberDim, 5⟩]).map DTerm.lift) ≠
      Dimension.canonicalize [⟨fooNumberDim, 5⟩] := by
  decide

/-- C2 (amended): canonicalization is idempotent on every canonical set it
returns, except when a `Number`-dimension term survives into a Dimension
canonical set other than as the exact fallback `{Number¹}` (re-canonicalizing
then discards it as `scalar`), and except when a Metric canonical term carries
a power-0 prefix other than the one-prefix `(10, 0)` (re-canonicalizing
rewrites it to the one-prefix).  Under those two provisos: re-canonicalizing
`Dimension.canonicalize(terms)` returns it unchanged, and re-canonicalizing
the term-set component of `Metric.canonicalize(terms)` returns it unchanged
(alongside a freshly derived dimension-term side computation). -/
theorem c2_amended (ts : List ODTerm) (ms : List OMTerm)
    (canon : List MTerm) (d : List DTerm)
    (hd : (∀ t ∈ Dimension.canonicalize ts, t.dim ≠ numberAtom) ∨
          Dimension.canonicalize ts = [⟨numberAtom, 1⟩])
    (hm : Metric.canonicalize ms = .ok (canon, d))
    (hp : ∀ t ∈ canon, t.pfx.power = 0 → t.pfx = pfx0) :
    Dimension.canonicalize ((Dimension.canonicalize ts).map DTerm.lift)
        = Dimension.canonicalize ts ∧
    ∃ d2, Metric.canonicalize (canon.map MTerm.lift) = .ok (canon, d2) := by
  constructor
  · rcases hd with hd | hd
    · by_cases hne : normalizeD (collectD ts) = []
      · exfalso
        have hfb : Dimension.canonicalize ts = [⟨numberAtom, 1⟩] := by
          simp only [Dimension.canonicalize]
          rw [if_pos hne]
        exact hd ⟨numberAtom, 1⟩ (by rw [hfb]; simp) rfl
      · obtain ⟨h1, h2, h3, h4⟩ := dim_canonicalize_props ts hne
        exact dim_idem_of_props _ h1 h2 h3 h4 hd
    · rw [hd]
      decide
  · rcases metric_canon_props ms canon d hm with hc | ⟨h1, h2, h3, h4⟩
    · subst hc
      exact ⟨[⟨numberAtom, 1⟩], by decide⟩
    · exact ⟨_, metric_idem_of_props canon h1 h2 h3 h4 hp⟩

/-- C2 witness: the amended idempotence at `{length²}` on the Dimension side
and at the canonicalization of `{(one-prefix, meter)¹}` on the Metric side. -/
theorem c2_amended_witness :
    Dimension.canonicalize
        ((Dimension.canonicalize [⟨lengthDim, 2⟩]).map DTerm.lift)
      = Dimension.canonicalize [⟨lengthDim, 2⟩] ∧
    ∃ d2, Metric.canonicalize ([⟨pfx0, meterAtom, 1⟩].map MTerm.lift)
      = .ok ([⟨pfx0, meterAtom, 1⟩], d2) :=
  c2_amended [⟨lengthDim, 2⟩] [⟨pfx0, meterObj, 1⟩] [⟨pfx0, meterAtom, 1⟩]
    [⟨⟨"length"⟩, 1⟩]
    (Or.inl (by decide)) (by decide) (by decide)

/-! ## Claim C5 — fractional-power round trips.
Toolkit: the exact whole/fractional split of the flattening loop, the block
of terms emitted per inner term, and the collect pass over such blocks. -/

theorem ratFloor_eq (r : ℚ) : ratFloor r = ⌊r⌋ := by
  rw [Rat.floor_def, ratFloor]
  exact Int.fdiv_eq_ediv _ (by positivity)

theorem ratFloor_le (r : ℚ) : (ratFloor r : ℚ) ≤ r := by
  rw [ratFloor_eq]; exact Int.floor_le r

theorem lt_ratFloor_add_one (r : ℚ) : r < ratFloor r + 1 := by
  rw [ratFloor_eq]
  exact_mod_cast Int.lt_floor_add_one r

theorem ratTrunc_intCast (n : ℤ) : ratTrunc (n : ℚ) = n := by
  simp [ratTrunc]

theorem den_one_cast (r : ℚ) (h : r.den = 1) : (r.num : ℚ) = r := by
  have h2 := Rat.num_div_den r
  rw [h] at h2
  simpa using h2

theorem cons_replicate_pred (n : ℕ) (x : α) (hn : n ≠ 0) :
    x :: List.replicate (n - 1) x = List.replicate n x := by
  cases n with
  | zero => exact absurd rfl hn
  | succ k => simp [List.replicate_succ]

theorem pfx0_add_resolve (p : Pfx) (hb : p.base = 10) (h0 : p.power = 0 → p = pfx0) :
    (Pfx.add pfx0 p).resolve = .ok p := by
  simp only [Pfx.add, pfx0]
  rw [if_neg (by simp)]
  by_cases hp0 : p.power = 0
  · rw [if_pos (by simpa using hp0)]
    rw [h0 hp0]
    rfl
  · rw [if_neg (by simpa using hp0)]
    have he : (⟨(10 : ℤ), 0 + p.power⟩ : Pfx) = p := by
      cases p with
      | mk b pw =>
          simp only [Pfx.mk.injEq]
          constructor
          · exact hb.symm
          · omega
    rw [he]
    rfl

theorem flattenInner_char (q r : ℚ) (applied : Bool) (p : Pfx) (m : MAtom)
    (hcomb : (Pfx.add pfx0 p).resolve = .ok p)
    (hne : pyWhole r ≠ 0 ∨ pyFrac r ≠ 0) :
    flattenInner pfx0 q applied ⟨p, m, r⟩ =
      .ok (emitT q ⟨p, m, r⟩, true) := by
  simp only [flattenInner, emitT]
  rw [show (if r < 0 then -(r - (ratFloor r : ℚ)) else r - (ratFloor r : ℚ)) = pyFrac r
      from rfl]
  rw [show ratTrunc (r - pyFrac r) = pyWhole r from rfl]
  by_cases hw : (pyWhole r).natAbs = 0
  · have hfr : pyFrac r ≠ 0 := by
      rcases hne with hne | hne
      · exact absurd (Int.natAbs_eq_zero.mp hw) hne
      · exact hne
    cases applied
    · simp [hw, hfr, hcomb]
    · simp [hw, hfr, hcomb]
  · have hrep : ∀ x : MTerm,
        x :: List.replicate ((pyWhole r).natAbs - 1) x
          = List.replicate (pyWhole r).natAbs x :=
      fun x => cons_replicate_pred _ x hw
    have hrep2 : ∀ (x : MTerm) (l : List MTerm),
        x :: (List.replicate ((pyWhole r).natAbs - 1) x ++ l)
          = List.replicate (pyWhole r).natAbs x ++ l := by
      intro x l
      rw [← List.cons_append, hrep x]
    by_cases hf : pyFrac r = 0
    · cases applied <;> simp [hw, hf, hcomb, hrep]
    · cases applied <;> simp [hw, hf, hcomb, hrep, hrep2]


theorem pyParts_exact (r : ℚ) (hr : r ≠ 0) (hx : 0 ≤ r ∨ (2 * r).den = 1) :
    (pyWhole r ≠ 0 ∨ pyFrac r ≠ 0) ∧
    (((pyWhole r).natAbs : ℚ) * (if 0 < r then (1 : ℚ) else -1) + pyFrac r = r) := by
  have hflt := ratFloor_le r
  have hfub := lt_ratFloor_add_one r
  rcases lt_trichotomy r 0 with hneg | hzero | hpos
  · have hden : (2 * r).den = 1 := by
      rcases hx with hx | hx
      · linarith
      · exact hx
    have hk : ((2 * r).num : ℚ) = 2 * r := den_one_cast _ hden
    have hfr : pyFrac r = -(r - (ratFloor r : ℚ)) := by
      simp only [pyFrac]
      rw [if_pos hneg]
    have hwq : pyWhole r = (2 * r).num - ratFloor r := by
      simp only [pyWhole, hfr]
      rw [show r - -(r - (ratFloor r : ℚ)) = (((2 * r).num - ratFloor r : ℤ) : ℚ) by
        push_cast [hk]
        ring]
      exact ratTrunc_intCast _
    have hk1 : ((2 : ℚ) * r) ≤ -1 := by
      have h3 : (2 * r).num < 0 := by
        have h2 : ((2 * r).num : ℚ) < 0 := by rw [hk]; linarith
        exact_mod_cast h2
      have h4 : (2 * r).num ≤ -1 := by omega
      calc (2 : ℚ) * r = ((2 * r).num : ℚ) := hk.symm
        _ ≤ -1 := by exact_mod_cast h4
    have hw0 : pyWhole r ≤ 0 := by
      rw [hwq]
      have h1 : (((2 * r).num - ratFloor r : ℤ) : ℚ) < 1 := by
        push_cast [hk]
        linarith
      have h2 : (2 * r).num - ratFloor r < 1 := by exact_mod_cast h1
      omega
    have hcast : ((pyWhole r).natAbs : ℚ) = -((pyWhole r : ℤ) : ℚ) := by
      rw [Int.cast_natAbs]
      rw [abs_of_nonpos (by exact_mod_cast hw0)]
      exact Int.cast_neg _
    constructor
    · by_contra hc
      push_neg at hc
      obtain ⟨h1, h2⟩ := hc
      rw [hfr] at h2
      rw [hwq] at h1
      have hrf : r = (ratFloor r : ℚ) := by linarith
      have h6 : ((2 * r).num : ℚ) = (ratFloor r : ℚ) := by
        have : (2 * r).num = ratFloor r := by omega
        exact_mod_cast this
      rw [hk] at h6
      have : r = 0 := by linarith
      exact hr this
    · rw [if_neg (by linarith : ¬ 0 < r), hcast, hwq, hfr]
      push_cast [hk]
      ring
  · exact absurd hzero hr
  · have hfr : pyFrac r = r - (ratFloor r : ℚ) := by
      simp only [pyFrac]
      rw [if_neg (by linarith : ¬ r < 0)]
    have hF0 : 0 ≤ ratFloor r := by
      have h1 : (-1 : ℚ) < (ratFloor r : ℚ) := by linarith
      have h2 : (-1 : ℤ) < ratFloor r := by exact_mod_cast h1
      omega
    have hwq : pyWhole r = ratFloor r := by
      simp only [pyWhole, hfr]
      rw [show r - (r - (ratFloor r : ℚ)) = ((ratFloor r : ℤ) : ℚ) by ring]
      exact ratTrunc_intCast _
    have hcast : ((pyWhole r).natAbs : ℚ) = ((ratFloor r : ℤ) : ℚ) := by
      rw [hwq, Int.cast_natAbs]
      rw [abs_of_nonneg (by exact_mod_cast hF0)]
    constructor
    · by_contra hc
      push_neg at hc
      obtain ⟨h1, h2⟩ := hc
      rw [hwq] at h1
      rw [hfr] at h2
      have h3 : (ratFloor r : ℚ) = 0 := by
        rw [h1]
        simp
      have : r = 0 := by linarith
      exact hr this
    · rw [if_pos hpos, hcast, hfr]
      ring

theorem emitT_key (q : ℚ) (t : MTerm) :
    ∀ w ∈ emitT q t, w.pfx = t.pfx ∧ w.metric = t.metric := by
  intro w hw
  simp only [emitT, List.mem_append, List.mem_replicate] at hw
  rcases hw with ⟨_, rfl⟩ | hw
  · exact ⟨rfl, rfl⟩
  · by_cases hf : pyFrac t.power = 0
    · rw [if_pos hf] at hw
      simp at hw
    · rw [if_neg hf] at hw
      simp only [List.mem_singleton] at hw
      rw [hw]
      exact ⟨rfl, rfl⟩

theorem emitT_ne_nil (q : ℚ) (t : MTerm) (hr : t.power ≠ 0)
    (hx : 0 ≤ t.power ∨ (2 * t.power).den = 1) : emitT q t ≠ [] := by
  obtain ⟨hne, _⟩ := pyParts_exact t.power hr hx
  simp only [emitT]
  intro hc
  obtain ⟨h1, h2⟩ := List.append_eq_nil.mp hc
  rcases hne with h | h
  · rw [List.replicate_eq_nil_iff] at h1
    exact h (Int.natAbs_eq_zero.mp h1)
  · rw [if_neg h] at h2
    simp at h2

theorem emitT_sum (q : ℚ) (t : MTerm) (hr : t.power ≠ 0)
    (hx : 0 ≤ t.power ∨ (2 * t.power).den = 1) :
    ((emitT q t).map MTerm.power).sum = t.power * q := by
  obtain ⟨_, hsum⟩ := pyParts_exact t.power hr hx
  simp only [emitT, List.map_append, List.map_replicate, List.sum_append,
    List.sum_replicate, nsmul_eq_mul]
  by_cases hf : pyFrac t.power = 0
  · rw [if_pos hf]
    rw [hf] at hsum
    simp only [List.map_nil, List.sum_nil, add_zero]
    calc ((pyWhole t.power).natAbs : ℚ) * ((if 0 < t.power then (1 : ℚ) else -1) * q)
        = (((pyWhole t.power).natAbs : ℚ) * (if 0 < t.power then (1 : ℚ) else -1) + 0) * q := by
          ring
      _ = t.power * q := by rw [hsum]
  · rw [if_neg hf]
    simp only [List.map_cons, List.map_nil, List.sum_cons, List.sum_nil, add_zero]
    calc ((pyWhole t.power).natAbs : ℚ) * ((if 0 < t.power then (1 : ℚ) else -1) * q)
          + pyFrac t.power * q
        = (((pyWhole t.power).natAbs : ℚ) * (if 0 < t.power then (1 : ℚ) else -1)
            + pyFrac t.power) * q := by ring
      _ = t.power * q := by rw [hsum]


theorem flattenOuter_emit_aux (q : ℚ) :
    ∀ (ts : List MTerm) (out : List MTerm) (applied : Bool),
      (∀ t ∈ ts, t.pfx.base = 10 ∧ (t.pfx.power = 0 → t.pfx = pfx0) ∧
        t.power ≠ 0 ∧ (0 ≤ t.power ∨ (2 * t.power).den = 1)) →
      ∃ b : Bool,
        ts.foldl
          (fun acc it =>
            match acc with
            | .crash => .crash
            | .ok (out, applied) =>
                match flattenInner pfx0 q applied it with
                | .crash => .crash
                | .ok (ws, applied') => .ok (out ++ ws, applied'))
          (Outcome.ok (out, applied))
        = .ok (out ++ (ts.map (emitT q)).flatten, b) := by
  intro ts
  induction ts with
  | nil => intro out applied _; exact ⟨applied, by simp⟩
  | cons t rest ih =>
      intro out applied h
      obtain ⟨hb, h0, hr, hx⟩ := h t (by simp)
      have hcomb := pfx0_add_resolve t.pfx hb h0
      have hne := (pyParts_exact t.power hr hx).1
      have hchar : flattenInner pfx0 q applied t = .ok (emitT q t, true) :=
        flattenInner_char q t.power applied t.pfx t.metric hcomb hne
      simp only [List.map_cons, List.foldl_cons, hchar]
      obtain ⟨b, hb2⟩ := ih (out ++ emitT q t) true (fun x hx2 => h x (by simp [hx2]))
      refine ⟨b, ?_⟩
      rw [hb2]
      simp

theorem flattenOuter_emit (m0 : MetricObj) (q : ℚ)
    (h : ∀ t ∈ m0.terms, t.pfx.base = 10 ∧ (t.pfx.power = 0 → t.pfx = pfx0) ∧
        t.power ≠ 0 ∧ (0 ≤ t.power ∨ (2 * t.power).den = 1)) :
    flattenOuter ⟨pfx0, m0, q⟩ = .ok ((m0.terms.map (emitT q)).flatten) := by
  obtain ⟨b, hb⟩ := flattenOuter_emit_aux q m0.terms [] false h
  simp only [flattenOuter, hb]
  simp

theorem flattenM_emit (m0 : MetricObj) (q : ℚ)
    (h : ∀ t ∈ m0.terms, t.pfx.base = 10 ∧ (t.pfx.power = 0 → t.pfx = pfx0) ∧
        t.power ≠ 0 ∧ (0 ≤ t.power ∨ (2 * t.power).den = 1)) :
    flattenM [⟨pfx0, m0, q⟩] = .ok ((m0.terms.map (emitT q)).flatten) := by
  simp only [flattenM, List.foldl_cons, List.foldl_nil, flattenOuter_emit m0 q h]
  simp


theorem bumpM_last : ∀ (acc : List ((Pfx × MAtom) × ℚ)) (k : Pfx × MAtom) (s w : ℚ),
    (∀ e ∈ acc, e.1 ≠ k) →
    bumpM (acc ++ [(k, s)]) k w = acc ++ [(k, s + w)] := by
  intro acc
  induction acc with
  | nil => intro k s w _; simp [bumpM]
  | cons e rest ih =>
      intro k s w h
      obtain ⟨b, p⟩ := e
      simp only [List.cons_append, bumpM, List.append_eq]
      rw [if_neg (h (b, p) (by simp))]
      rw [ih k s w (fun x hx => h x (by simp [hx]))]

theorem collect_block : ∀ (b : List MTerm) (acc : List ((Pfx × MAtom) × ℚ))
      (k : Pfx × MAtom) (s : ℚ),
    (∀ w ∈ b, (w.pfx, w.metric) = k) →
    (∀ e ∈ acc, e.1 ≠ k) →
    b.foldl (fun acc w => bumpM acc (w.pfx, w.metric) w.power) (acc ++ [(k, s)])
      = acc ++ [(k, s + (b.map MTerm.power).sum)] := by
  intro b
  induction b with
  | nil => intro acc k s _ _; simp
  | cons w rest ih =>
      intro acc k s hk hacc
      have hw : (w.pfx, w.metric) = k := hk w (by simp)
      simp only [List.foldl_cons]
      rw [hw, bumpM_last acc k s w.power hacc]
      rw [ih acc k (s + w.power) (fun x hx => hk x (by simp [hx])) hacc]
      rw [List.map_cons, List.sum_cons, add_assoc]

theorem collect_blocks (q : ℚ) : ∀ (ts : List MTerm) (acc : List ((Pfx × MAtom) × ℚ)),
    (∀ t ∈ ts, t.power ≠ 0 ∧ (0 ≤ t.power ∨ (2 * t.power).den = 1)) →
    ((ts.map (fun t => (t.pfx, t.metric))).Nodup) →
    (∀ t ∈ ts, ∀ e ∈ acc, e.1 ≠ (t.pfx, t.metric)) →
    ((ts.map (emitT q)).flatten).foldl
        (fun acc w => bumpM acc (w.pfx, w.metric) w.power) acc
      = acc ++ ts.map (fun t => ((t.pfx, t.metric), t.power * q)) := by
  intro ts
  induction ts with
  | nil => intro acc _ _ _; simp
  | cons t rest ih =>
      intro acc h hnd hdisj
      obtain ⟨hr, hx⟩ := h t (by simp)
      have hkey := emitT_key q t
      have hnn := emitT_ne_nil q t hr hx
      have hsum := emitT_sum q t hr hx
      have hnd3 := List.nodup_cons.mp hnd
      simp only [List.map_cons, List.flatten_cons, List.foldl_append]
      cases hE : emitT q t with
      | nil => exact absurd hE hnn
      | cons w ws =>
          have hwk : (w.pfx, w.metric) = (t.pfx, t.metric) := by
            have h2 := hkey w (by rw [hE]; simp)
            rw [h2.1, h2.2]
          simp only [List.foldl_cons]
          rw [hwk, bumpM_of_not_mem acc (t.pfx, t.metric) w.power (hdisj t (by simp))]
          rw [collect_block ws acc (t.pfx, t.metric) w.power
                (fun x hx2 => by
                  have h3 := hkey x (by rw [hE]; simp [hx2])
                  rw [h3.1, h3.2])
                (hdisj t (by simp))]
          have hsum2 : w.power + (ws.map MTerm.power).sum = t.power * q := by
            rw [← hsum, hE]
            simp
          rw [hsum2]
          rw [ih (acc ++ [((t.pfx, t.metric), t.power * q)])
                (fun x hx2 => h x (by simp [hx2]))
                hnd3.2
                ?_]
          · simp
          · intro x hx2 e he
            rcases List.mem_append.mp he with ha | hb2
            · exact hdisj x (by simp [hx2]) e ha
            · have heq : e = ((t.pfx, t.metric), t.power * q) := by simpa using hb2
              rw [heq]
              intro hc
              apply hnd3.1
              show (t.pfx, t.metric) ∈ List.map (fun t => (t.pfx, t.metric)) rest
              have hc2 : (t.pfx, t.metric) = (x.pfx, x.metric) := hc
              rw [hc2]
              exact List.mem_map_of_mem _ hx2

theorem canonicalize_pow (m0 : MetricObj) (q : ℚ) (hq : q ≠ 0)
    (h : ∀ t ∈ m0.terms, t.pfx.base = 10 ∧ (t.pfx.power = 0 → t.pfx = pfx0) ∧
        t.power ≠ 0 ∧ (0 ≤ t.power ∨ (2 * t.power).den = 1))
    (hnd : (m0.terms.map (fun t => (t.pfx, t.metric))).Nodup)
    (hne : m0.terms ≠ []) :
    Metric.canonicalize [⟨pfx0, m0, q⟩]
      = .ok (sortM (m0.terms.map (fun t => ⟨t.pfx, t.metric, t.power * q⟩)),
             Dimension.canonicalize (dimTermsOf [⟨pfx0, m0, q⟩])) := by
  rw [Metric.canonicalize_ok _ _ (flattenM_emit m0 q h)]
  have hc : collectM ((m0.terms.map (emitT q)).flatten)
      = m0.terms.map (fun t => ((t.pfx, t.metric), t.power * q)) := by
    have h2 := collect_blocks q m0.terms []
      (fun t ht => ⟨(h t ht).2.2.1, (h t ht).2.2.2⟩) hnd (by simp)
    simpa [collectM] using h2
  rw [hc]
  have hmm : m0.terms.map (fun t => ((t.pfx, t.metric), t.power * q))
      = (m0.terms.map (fun t => (⟨t.pfx, t.metric, t.power * q⟩ : MTerm))).map
          (fun t => ((t.pfx, t.metric), t.power)) := by
    rw [List.map_map]
    rfl
  rw [hmm, normalizeM_map_pair _ ?_]
  · rw [if_neg ?_]
    intro hc2
    exact hne (List.map_eq_nil_iff.mp hc2)
  · intro x hx2
    obtain ⟨t, ht, rfl⟩ := List.mem_map.mp hx2
    exact mul_ne_zero (h t ht).2.2.1 hq

theorem perm_mSetEq (a b : List MTerm) (h : List.Perm a b) : mSetEq a b = true := by
  simp only [mSetEq, Bool.and_eq_true, List.all_eq_true, decide_eq_true_eq]
  exact ⟨⟨by simp [h.length_eq], fun x hx => h.mem_iff.mp hx⟩,
         fun x hx => h.mem_iff.mpr hx⟩

theorem map_halfSq_id : ∀ l : List MTerm,
    l.map (fun t => (⟨t.pfx, t.metric, t.power * (1/2) * 2⟩ : MTerm)) = l := by
  intro l
  induction l with
  | nil => rfl
  | cons x xs ih =>
      rw [List.map_cons, ih]
      congr 1
      cases x with
      | mk a b c =>
          simp only [MTerm.mk.injEq, true_and]
          ring

/-- C5 counterexample: the round trip `(m ** 0.5) ** 2` is not exact for
every Metric.  For `kibimeter` (the Kibi prefix `(2, 10)` on `meter`),
flattening `kibimeter ** 0.5` combines the one-prefix with Kibi via
`Prefix.__add__`, which takes `self.base` — the *left* operand's base 10 —
so the canonical set becomes `{(10¹⁰ meter)^½}` and squaring yields
`{(10¹⁰ meter)¹}`, which is not `kibimeter`'s canonical set
`{(2¹⁰ meter)¹}`. -/
theorem c5_counterexample :
    ∃ M2, powHalfSq kibiMeter = .ok M2 ∧ mSetEq M2.terms kibiMeter.terms = false :=
  ⟨_, rfl, by decide⟩

/-- C5 (amended): the round trip `(M ** 0.5) ** 2` reproduces `M`'s
canonical term set (as a frozenset) provided every canonical term of `M`
has a base-10 prefix (power-0 prefixes being the one-prefix), a nonzero
power that is positive or an integer, and the `(prefix, metric)` keys are
pairwise distinct; fractional leftover powers are then folded exactly.
Outside these provisos the trip distorts: a non-base-10 prefix is
rewritten to base 10 by the prefix addition, and a negative power whose
double is not integral is mangled by the whole/fractional split. -/
theorem c5_amended (M : MetricObj)
    (h : ∀ t ∈ M.terms, t.pfx.base = 10 ∧ (t.pfx.power = 0 → t.pfx = pfx0) ∧
        t.power ≠ 0 ∧ (0 ≤ t.power ∨ t.power.den = 1))
    (hnd : (M.terms.map (fun t => (t.pfx, t.metric))).Nodup)
    (hne : M.terms ≠ []) :
    ∃ M2, powHalfSq M = .ok M2 ∧ mSetEq M2.terms M.terms = true := by
  have hden2 : ∀ r : ℚ, r.den = 1 → (2 * r).den = 1 := by
    intro r hr1
    have h2 : (2 * r) = ((2 * r.num : ℤ) : ℚ) := by
      rw [show ((2 * r.num : ℤ) : ℚ) = 2 * (r.num : ℚ) by push_cast; ring]
      rw [den_one_cast r hr1]
    rw [h2]
    exact Rat.den_intCast _
  have h1 : ∀ t ∈ M.terms, t.pfx.base = 10 ∧ (t.pfx.power = 0 → t.pfx = pfx0) ∧
      t.power ≠ 0 ∧ (0 ≤ t.power ∨ (2 * t.power).den = 1) := by
    intro t ht
    obtain ⟨ha, hb, hc, hd⟩ := h t ht
    exact ⟨ha, hb, hc, hd.imp id (hden2 t.power)⟩
  have hstep1 := canonicalize_pow M (1/2) (by norm_num) h1 hnd hne
  have hpow1 : Metric.pow M (1/2)
      = .ok (mkMetric
          (sortM (M.terms.map (fun t => ⟨t.pfx, t.metric, t.power * (1/2)⟩)))
          (Dimension.canonicalize (dimTermsOf [⟨pfx0, M, 1/2⟩]))) := by
    simp only [Metric.pow, hstep1]
  have hpermS : List.Perm
      (sortM (M.terms.map (fun t => ⟨t.pfx, t.metric, t.power * (1/2)⟩)))
      (M.terms.map (fun t => ⟨t.pfx, t.metric, t.power * (1/2)⟩)) :=
    sortBy'_perm _ _
  have hkeymap : ((M.terms.map (fun t => (⟨t.pfx, t.metric, t.power * (1/2)⟩ : MTerm))).map
      (fun t => (t.pfx, t.metric))) = M.terms.map (fun t => (t.pfx, t.metric)) := by
    rw [List.map_map]
    rfl
  have hnd1 : (((sortM (M.terms.map (fun t => ⟨t.pfx, t.metric, t.power * (1/2)⟩))).map
      (fun t => (t.pfx, t.metric)))).Nodup := by
    have h3 : (((M.terms.map (fun t => (⟨t.pfx, t.metric, t.power * (1/2)⟩ : MTerm))).map
        (fun t => (t.pfx, t.metric)))).Nodup := by
      rw [hkeymap]
      exact hnd
    exact ((hpermS.map _).nodup_iff).mpr h3
  have hmem1 : ∀ t ∈ sortM (M.terms.map (fun t => ⟨t.pfx, t.metric, t.power * (1/2)⟩)),
      ∃ t0 ∈ M.terms, t = (⟨t0.pfx, t0.metric, t0.power * (1/2)⟩ : MTerm) := by
    intro t ht
    have h4 := hpermS.mem_iff.mp ht
    obtain ⟨t0, ht0, he⟩ := List.mem_map.mp h4
    exact ⟨t0, ht0, he.symm⟩
  have h2 : ∀ t ∈ sortM (M.terms.map (fun t => ⟨t.pfx, t.metric, t.power * (1/2)⟩)),
      t.pfx.base = 10 ∧ (t.pfx.power = 0 → t.pfx = pfx0) ∧
      t.power ≠ 0 ∧ (0 ≤ t.power ∨ (2 * t.power).den = 1) := by
    intro t ht
    obtain ⟨t0, ht0, rfl⟩ := hmem1 t ht
    obtain ⟨ha, hb, hc, hd⟩ := h t0 ht0
    refine ⟨ha, hb, mul_ne_zero hc (by norm_num), ?_⟩
    rcases hd with hd | hd
    · left
      exact mul_nonneg hd (by norm_num)
    · right
      rw [show (2 : ℚ) * (t0.power * (1/2)) = t0.power by ring]
      exact hd
  have hne1 : sortM (M.terms.map (fun t => ⟨t.pfx, t.metric, t.power * (1/2)⟩)) ≠ [] :=
    sortBy'_ne_nil _ _ (by
      intro hc
      exact hne (List.map_eq_nil_iff.mp hc))
  have hstep2 := canonicalize_pow
    (mkMetric (sortM (M.terms.map (fun t => ⟨t.pfx, t.metric, t.power * (1/2)⟩)))
      (Dimension.canonicalize (dimTermsOf [⟨pfx0, M, 1/2⟩])))
    2 (by norm_num) h2 hnd1 hne1
  have hpow2 : Metric.pow
      (mkMetric (sortM (M.terms.map (fun t => ⟨t.pfx, t.metric, t.power * (1/2)⟩)))
        (Dimension.canonicalize (dimTermsOf [⟨pfx0, M, 1/2⟩]))) 2
      = .ok (mkMetric
          (sortM ((sortM (M.terms.map (fun t => ⟨t.pfx, t.metric, t.power * (1/2)⟩))).map
            (fun t => ⟨t.pfx, t.metric, t.power * 2⟩)))
          (Dimension.canonicalize (dimTermsOf
            [⟨pfx0, mkMetric (sortM (M.terms.map (fun t => ⟨t.pfx, t.metric, t.power * (1/2)⟩)))
              (Dimension.canonicalize (dimTermsOf [⟨pfx0, M, 1/2⟩])), 2⟩]))) := by
    simp only [Metric.pow, hstep2]
    rfl
  refine ⟨mkMetric
      (sortM ((sortM (M.terms.map (fun t => ⟨t.pfx, t.metric, t.power * (1/2)⟩))).map
        (fun t => ⟨t.pfx, t.metric, t.power * 2⟩)))
      (Dimension.canonicalize (dimTermsOf
        [⟨pfx0, mkMetric (sortM (M.terms.map (fun t => ⟨t.pfx, t.metric, t.power * (1/2)⟩)))
          (Dimension.canonicalize (dimTermsOf [⟨pfx0, M, 1/2⟩])), 2⟩])), ?_, ?_⟩
  · simp only [powHalfSq, hpow1, hpow2]
  apply perm_mSetEq
  have hp1 : List.Perm
      (sortM ((sortM (M.terms.map (fun t => ⟨t.pfx, t.metric, t.power * (1/2)⟩))).map
        (fun t => ⟨t.pfx, t.metric, t.power * 2⟩)))
      ((sortM (M.terms.map (fun t => ⟨t.pfx, t.metric, t.power * (1/2)⟩))).map
        (fun t => ⟨t.pfx, t.metric, t.power * 2⟩)) :=
    sortBy'_perm _ _
  have hp2 : List.Perm
      ((sortM (M.terms.map (fun t => ⟨t.pfx, t.metric, t.power * (1/2)⟩))).map
        (fun t => (⟨t.pfx, t.metric, t.power * 2⟩ : MTerm)))
      ((M.terms.map (fun t => (⟨t.pfx, t.metric, t.power * (1/2)⟩ : MTerm))).map
        (fun t => (⟨t.pfx, t.metric, t.power * 2⟩ : MTerm))) :=
    hpermS.map _
  have he3 : ((M.terms.map (fun t => (⟨t.pfx, t.metric, t.power * (1/2)⟩ : MTerm))).map
      (fun t => (⟨t.pfx, t.metric, t.power * 2⟩ : MTerm))) = M.terms := by
    rw [List.map_map]
    exact map_halfSq_id M.terms
  rw [he3] at hp2
  exact hp1.trans hp2

/-- C5 witness: the amended round-trip exactness at `meter`, whose single
canonical term has the one-prefix and power 1. -/
theorem c5_amended_witness :
    (∀ t ∈ meterObj.terms, t.pfx.base = 10 ∧ (t.pfx.power = 0 → t.pfx = pfx0) ∧
        t.power ≠ 0 ∧ (0 ≤ t.power ∨ t.power.den = 1)) ∧
    ∃ M2, powHalfSq meterObj = .ok M2 ∧ mSetEq M2.terms meterObj.terms = true :=
  ⟨by decide, c5_amended meterObj (by decide) (by decide) (by decide)⟩

/-! ## Claim C6 — when `Metric.to` raises `MetricConversionError`.
Toolkit: the one-step reduction of `find_conversion` on the conversionless
`foo1 → foo2` pair, and the divergence of the mutual recursion on it. -/

theorem foo_key (cb : MetricObj → MetricObj → RRes)
    (hcb : cb (MAtom.toMetric ⟨"foo1", fdim⟩) foo2Obj = .fuelOut) :
    findBody cb fooSt2 foo1Obj foo2Obj = .fuelOut := by
  have r1 : Metric.reduce foo1Obj = some ⟨1, foo1Obj⟩ := by decide
  have r2 : Metric.reduce foo2Obj = some ⟨1, foo2Obj⟩ := by decide
  have hdiv : Qty.div (⟨1, foo1Obj⟩ : Qty) (⟨1, foo2Obj⟩ : Qty) = .ok ⟨1, fooRatio⟩ := by
    decide
  have heq1 : Metric.eq fooRatio oneObj = some false := by decide
  have hcf1 : convFind fooSt2 fooRatio = none := by decide
  have hdiv2 : Metric.div oneObj fooRatio = .ok fooRatioInv := by decide
  have hcf2 : convFind fooSt2 fooRatioInv = none := by decide
  have hroot : rootStage fooSt2 fooRatio = .ok none := by decide
  have halk : alookup dSetEq fooSt2.baseMetricOf fdim.terms = some foo2Obj := by decide
  simp only [findBody, r1, r2, hdiv, heq1, hcf1, hdiv2, hcf2, hroot]
  simp only [factorLabel, fooRatio, List.foldl_cons, List.foldl_nil, halk, hcb]

theorem foo_diverges : ∀ n : ℕ,
    resolve n true fooSt2 foo1Obj foo2Obj = .fuelOut ∧
    resolve n false fooSt2 foo1Obj foo2Obj = .fuelOut := by
  intro n
  induction n with
  | zero => exact ⟨rfl, rfl⟩
  | succ n ih =>
      constructor
      · show toBody (resolve n false fooSt2) foo1Obj foo2Obj = .fuelOut
        have he : Metric.eq foo1Obj foo2Obj = some false := by decide
        have hd : dSetEq foo1Obj.dim.terms foo2Obj.dim.terms = true := by decide
        simp only [toBody, he, hd]
        rw [if_neg (by simp)]
        rw [ih.2]
      · show findBody (resolve n true fooSt2) fooSt2 foo1Obj foo2Obj = .fuelOut
        exact foo_key (resolve n true fooSt2) ih.1

/-- C6 counterexample: `Metric.to` does *not* raise
`MetricConversionError` on every impossible conversion.  `foo1` and
`foo2` share a Dimension whose base metric is `foo2`, and no Conversion
is registered, so conversion is impossible — yet at every recursion
budget the resolution is still recursing (the factor-label strategy
re-enters `Metric.to(foo1 → foo2)` for the `foo1` term of the ratio), so
the source raises `RecursionError`, never `MetricConversionError`. -/
theorem c6_counterexample :
    ¬ ∃ n : ℕ, Metric.toConv n fooSt2 foo1Obj foo2Obj = .raisesMCE := by
  intro h
  obtain ⟨n, hn⟩ := h
  have h2 : Metric.toConv n fooSt2 foo1Obj foo2Obj = .fuelOut := (foo_diverges n).1
  rw [h2] at hn
  exact RRes.noConfusion hn

/-- C6 (amended): the `MetricConversionError` behaviour of `Metric.to`
that does hold: (1) when the two Metrics compare equal, `to` returns the
identity conversion without consulting the registry; (2) when they differ
and their Dimensions' canonical term sets differ, `to` raises before
attempting any resolution (at every recursion budget, including the one
that forbids any recursive call); (3) when they differ, the Dimensions
agree and `find_conversion` returns `None`, `to` raises; (4) a
`FunctionConversion` called with a Quantity whose Metric is neither its
to-side nor its from-side raises.  (The spec's "exactly when conversion is
impossible" is refuted separately: resolution need not terminate.) -/
theorem c6_amended :
    (∀ (n : ℕ) (st : ConvSt) (a b : MetricObj),
        Metric.eq a b = some true →
        Metric.toConv (n + 1) st a b = .conv .identity) ∧
    (∀ (n : ℕ) (st : ConvSt) (a b : MetricObj),
        Metric.eq a b = some false →
        dSetEq a.dim.terms b.dim.terms = false →
        Metric.toConv (n + 1) st a b = .raisesMCE) ∧
    (∀ (n : ℕ) (st : ConvSt) (a b : MetricObj),
        Metric.eq a b = some false →
        dSetEq a.dim.terms b.dim.terms = true →
        Metric.findConversion n st a b = .nothing →
        Metric.toConv (n + 1) st a b = .raisesMCE) ∧
    (∀ (fromM toM : MetricObj) (fromFn toFn : ℚ → Qty) (q : Qty),
        Metric.eq q.metric toM = some false →
        Metric.eq q.metric fromM = some false →
        applyFunc fromM toM fromFn toFn q = .raisesMCE) := by
  refine ⟨?_, ?_, ?_, ?_⟩
  · intro n st a b h
    show toBody (resolve n false st) a b = .conv .identity
    simp only [toBody, h]
  · intro n st a b h1 h2
    show toBody (resolve n false st) a b = .raisesMCE
    simp only [toBody, h1, h2]
    rw [if_pos (by simp)]
  · intro n st a b h1 h2 h3
    show toBody (resolve n false st) a b = .raisesMCE
    have h3x : resolve n false st a b = .nothing := h3
    simp only [toBody, h1, h2]
    rw [if_neg (by simp)]
    rw [h3x]
  · intro fromM toM fromFn toFn q h1 h2
    simp only [applyFunc, h1, h2]

/-- C6 witness: the four amended behaviours at concrete instances — the
identity shortcut at `foo1 → foo1`; the dimension-mismatch raise at
`meter → second` with zero recursion budget; the raise after
`find_conversion(celsius·kelvin, rankine²)` returns `None` in the
temperature catalog (its factor-label pass terminates but the accumulator
is not dimensionless `one`); and the foreign-Quantity raise of the
celsius/kelvin `FunctionConversion` on `1 meter`. -/
theorem c6_amended_witness :
    Metric.toConv 1 fooSt2 foo1Obj foo1Obj = .conv .identity ∧
    Metric.toConv 1 fooSt2 meterObj (MAtom.toMetric ⟨"second", timeDim⟩) = .raisesMCE ∧
    Metric.toConv 7 tempSt celsiusKelvin rankineSq = .raisesMCE ∧
    applyFunc celsiusObj kelvinObj celsiusToKelvinFn kelvinToCelsiusFn ⟨1, meterObj⟩
      = .raisesMCE :=
  ⟨c6_amended.1 0 fooSt2 foo1Obj foo1Obj (by decide),
   c6_amended.2.1 0 fooSt2 meterObj (MAtom.toMetric ⟨"second", timeDim⟩)
     (by decide) (by decide),
   c6_amended.2.2.1 6 tempSt celsiusKelvin rankineSq (by decide) (by decide) (by decide),
   c6_amended.2.2.2 celsiusObj kelvinObj celsiusToKelvinFn kelvinToCelsiusFn ⟨1, meterObj⟩
     (by decide) (by decide)⟩

end Measurement

